import Mathlib

/-!
# Raft peer (`src/raft/raft.go`): shallow embedding and checked properties

Conventions of the embedding.

* Go `int` is embedded as `Int`, for a 64-bit platform.  `rf.currentTerm++`
  wraps around at the 64-bit bounds (`wrapInt64`); `votes++` and `votes*2` are
  bounded by the number of peers and `len(rf.log)-1` by the length of a slice,
  so they are exact.
* `float64(n)` of an `int` is the integer value of the nearest double
  (`float64OfInt`).
* A slice is a `List`; an index expression `s[i]` that Go would abort on
  (index out of range) makes the embedded function return `none`.
* `time.Now()` is a parameter `now` of the function that reads the clock.
* `interface{}` commands are `Option Nat`, `none` being Go's `nil`.
* The mutex is not embedded: each function below is one critical section
  (the code between `rf.mu.Lock()` and the matching unlock).
-/

namespace MIT6824

/-! ## Data model -/

/-- Role constant `FOLLOWER` of the source. -/
abbrev FOLLOWER : Int := 0
/-- Role constant `CANDIDATE` of the source. -/
abbrev CANDIDATE : Int := 1
/-- Role constant `LEADER` of the source. -/
abbrev LEADER : Int := 2

/-- Log entry struct of the source. -/
structure LogEntry where
  Term : Int
  Command : Option Nat
  deriving DecidableEq, Repr

/-- The fields of `type Raft struct` that the embedded code reads or writes.
`npeers` is `len(rf.peers)`; `matchIndex` is the field the struct declares as
`matchIdex`. -/
structure Raft where
  npeers : Nat
  me : Int
  dead : Int
  currentTerm : Int
  votedFor : Int
  log : List LogEntry
  commitIndex : Int
  lastApplied : Int
  timestamp : Nat
  state : Int
  nextIndex : List Int
  matchIndex : List Int
  deriving DecidableEq, Repr

/-- Arguments of the RequestVote call. -/
structure RequestVoteArgs where
  Term : Int
  CandidateId : Int
  LastLogIndex : Int
  LastLogTerm : Int
  deriving DecidableEq, Repr

/-- Reply of the RequestVote call. -/
structure RequestVoteReply where
  Term : Int
  VoteGranted : Bool
  deriving DecidableEq, Repr

/-- Arguments of the AppendEntries call. -/
structure AppendEntriesArgs where
  Term : Int
  LeaderId : Int
  PrevLogIndex : Int
  PrevLogTerm : Int
  Entries : List LogEntry
  LeaderCommit : Int
  deriving DecidableEq, Repr

/-- Reply of the AppendEntries call. -/
structure AppendEntriesReply where
  Term : Int
  Success : Bool
  deriving DecidableEq, Repr

/-- Go index expression `log[i]`: `none` when Go aborts with index out of range. -/
def logAt (log : List LogEntry) (i : Int) : Option LogEntry :=
  if 0 ≤ i then log[i.toNat]? else none

/-- The three assignments both handlers and both reply paths perform on seeing a
higher term `t`. -/
def stepDown (rf : Raft) (t : Int) : Raft :=
  { rf with currentTerm := t, state := FOLLOWER, votedFor := -1 }

/-! ## Machine arithmetic -/

/-- Largest value of Go `int` on a 64-bit platform. -/
def maxInt64 : Int := 9223372036854775807

/-- Smallest value of Go `int` on a 64-bit platform. -/
def minInt64 : Int := -9223372036854775808

/-- Result of 64-bit signed arithmetic on the exact result `n`: Go integer
arithmetic wraps around on overflow. -/
def wrapInt64 (n : Int) : Int :=
  (n + 9223372036854775808) % 18446744073709551616 - 9223372036854775808

/-- Number of low bits a 64-bit magnitude `m` loses when it is cut to a 53-bit
significand: the least `e` with `m < 2^(53+e)`, found in at most `fuel` halvings
(11 are enough below 2^64). -/
def float64Exp : Nat → Nat → Nat
  | 0, _ => 0
  | fuel + 1, m => if m < 2 ^ 53 then 0 else float64Exp fuel (m / 2) + 1

/-- Value of the conversion `float64(n)` of a Go `int` `n`: the nearest number
with a 53-bit significand, ties going to the even significand. -/
def float64OfInt (n : Int) : Int :=
  let m := n.natAbs
  if m ≤ 2 ^ 53 then n
  else
    let u := 2 ^ float64Exp 11 m
    let q := m / u
    let r := m % u
    let q1 := if 2 * r > u ∨ (2 * r = u ∧ q % 2 = 1) then q + 1 else q
    Int.sign n * ((q1 * u : Nat) : Int)

/-- The expression of line 213, `int(math.Min(float64(leaderCommit),
float64(lastIndex)))` with `lastIndex = len(rf.log)-1`.  A slice of 2^53 log
entries does not fit in memory, so for every log Go can hold `lastIndex` is
below 2^53, its conversion is exact and the minimum, an integer between
`float64(leaderCommit)` and `lastIndex`, converts back exactly; that is the
first branch.  The second branch is not reachable in Go. -/
def commitBound (leaderCommit lastIndex : Int) : Int :=
  if lastIndex < 2 ^ 53 then min (float64OfInt leaderCommit) lastIndex
  else min leaderCommit lastIndex

/-! ## RPC handlers -/

/-- Handler `RequestVote` (lines 225-262). -/
def RequestVote (rf : Raft) (now : Nat) (args : RequestVoteArgs) :
    Option (Raft × RequestVoteReply) :=
  if args.Term < rf.currentTerm then
    some (rf, { Term := rf.currentTerm, VoteGranted := false })
  else
    let rf1 := if args.Term > rf.currentTerm then stepDown rf args.Term else rf
    if rf1.votedFor = -1 ∨ rf1.votedFor = args.CandidateId then
      match logAt rf1.log ((rf1.log.length : Int) - 1) with
      | none => none
      | some e =>
        let lastlogterm := e.Term
        if args.LastLogTerm > lastlogterm ∨
            (args.LastLogTerm = lastlogterm ∧
              args.LastLogIndex ≥ (rf1.log.length : Int) - 1) then
          some ({ rf1 with timestamp := now, votedFor := args.CandidateId },
                { Term := rf1.currentTerm, VoteGranted := true })
        else
          some (rf1, { Term := rf1.currentTerm, VoteGranted := false })
    else
      some (rf1, { Term := rf1.currentTerm, VoteGranted := false })

/-- Handler `AppendEntries` (lines 179-215); the new commitIndex of line 213 is
`commitBound`. -/
def AppendEntries (rf : Raft) (now : Nat) (args : AppendEntriesArgs) :
    Option (Raft × AppendEntriesReply) :=
  let rf1 := if args.Term > rf.currentTerm then stepDown rf args.Term else rf
  if args.Term < rf1.currentTerm then
    some (rf1, { Term := rf1.currentTerm, Success := false })
  else
    let rf2 := { rf1 with timestamp := now }
    if args.PrevLogIndex ≥ (rf2.log.length : Int) then
      some (rf2, { Term := rf2.currentTerm, Success := false })
    else
      match logAt rf2.log args.PrevLogIndex with
      | none => none
      | some e =>
        if e.Term ≠ args.PrevLogTerm then
          some (rf2, { Term := rf2.currentTerm, Success := false })
        else
          let rf3 :=
            if args.LeaderCommit > rf2.commitIndex then
              { rf2 with commitIndex := commitBound args.LeaderCommit ((rf2.log.length : Int) - 1) }
            else rf2
          some (rf3, { Term := rf3.currentTerm, Success := true })

/-! ## Host-facing operations -/

/-- Function `killed` (lines 346-349). -/
def killed (rf : Raft) : Bool := rf.dead == 1

/-- Function `Kill` (lines 341-344). -/
def Kill (rf : Raft) : Raft := { rf with dead := 1 }

/-- Function `GetState` (lines 96-100). -/
def GetState (rf : Raft) : Int × Bool := (rf.currentTerm, rf.state == LEADER)

/-- Function `Start` (lines 312-328): the new state and the triple
`(index, term, isLeader)`. -/
def Start (rf : Raft) (command : Option Nat) : Raft × (Int × Int × Bool) :=
  if rf.state ≠ LEADER ∨ killed rf = true then
    (rf, (-1, -1, false))
  else
    ({ rf with log := rf.log ++ [{ Term := rf.currentTerm, Command := command }] },
      ((rf.log.length : Int), rf.currentTerm, true))

/-- Function `Make` (lines 525-550) for `len(peers) = npeers`, read at clock
value `now`.  `readPersist` has no effect in the source and is omitted; the
fields the source does not assign have Go's zero value. -/
def Make (npeers : Nat) (me : Int) (now : Nat) : Raft :=
  { npeers := npeers
    me := me
    dead := 0
    currentTerm := 0
    votedFor := -1
    log := [{ Term := 0, Command := none }]
    commitIndex := 0
    lastApplied := 0
    timestamp := now
    state := FOLLOWER
    nextIndex := List.replicate npeers 0
    matchIndex := List.replicate npeers 0 }

/-! ## Outgoing calls and the election driver -/

/-- The argument struct `callRequestVote` builds (lines 418-423). -/
def requestVoteArgs (rf : Raft) (term lastlogidx lastlogterm : Int) : RequestVoteArgs :=
  { Term := term, CandidateId := rf.me, LastLogIndex := lastlogidx,
    LastLogTerm := lastlogterm }

/-- The locked part of `callRequestVote` (lines 430-446), run on a delivered
reply to a call that was dispatched with `term`: the new state and the value
returned. -/
def callRequestVote (rf : Raft) (term : Int) (reply : RequestVoteReply) : Raft × Bool :=
  if term ≠ rf.currentTerm then (rf, false)
  else
    let rf1 := if reply.Term > rf.currentTerm then stepDown rf reply.Term else rf
    (rf1, reply.VoteGranted)

/-- The argument struct `callAppendEntries` builds (lines 356-363). -/
def appendEntriesArgs (rf : Raft) (term prevLogIndex prevLogTerm : Int)
    (entries : List LogEntry) (leaderCommit : Int) : AppendEntriesArgs :=
  { Term := term, LeaderId := rf.me, PrevLogIndex := prevLogIndex,
    PrevLogTerm := prevLogTerm, Entries := entries, LeaderCommit := leaderCommit }

/-- The locked part of `callAppendEntries` (lines 369-384), run on a delivered
reply to a call that was dispatched with `term`. -/
def callAppendEntries (rf : Raft) (term : Int) (reply : AppendEntriesReply) : Raft × Bool :=
  if term ≠ rf.currentTerm then (rf, false)
  else
    let rf1 := if reply.Term > rf.currentTerm then stepDown rf reply.Term else rf
    (rf1, reply.Success)

/-- What the locked first part of `startElection` saves for its calls
(lines 455-457). -/
structure ElectionSnapshot where
  term : Int
  lastlogidx : Int
  lastlogterm : Int
  deriving DecidableEq, Repr

/-- The locked first part of `startElection` (lines 450-458); `rf.currentTerm++`
is 64-bit addition. -/
def startElection (rf : Raft) (now : Nat) : Option (Raft × ElectionSnapshot) :=
  let rf1 := { rf with currentTerm := wrapInt64 (rf.currentTerm + 1), votedFor := rf.me,
                       state := CANDIDATE, timestamp := now }
  let lastlogidx := (rf1.log.length : Int) - 1
  match logAt rf1.log lastlogidx with
  | none => none
  | some e => some (rf1, { term := rf1.currentTerm, lastlogidx := lastlogidx,
                           lastlogterm := e.Term })

/-- The variables `votes` and `electionFinished` one run of `startElection`
shares between its goroutines (lines 461-462). -/
structure Tally where
  votes : Int
  electionFinished : Bool
  deriving DecidableEq, Repr

/-- Initial tally of an election: the self vote (lines 461-462). -/
def Tally.init : Tally := { votes := 1, electionFinished := false }

/-- The loop of lines 479-482 over `i = 0 .. len(rf.peers)-1`. -/
def reinitLeader (rf : Raft) : Raft :=
  (List.range rf.npeers).foldl
    (fun r i => { r with nextIndex := r.nextIndex.set i (r.log.length : Int),
                         matchIndex := r.matchIndex.set i 0 })
    rf

/-- The promotion block of lines 476-483. -/
def promote (rf : Raft) : Raft := reinitLeader { rf with state := LEADER }

/-- The block one goroutine of `startElection` runs under `voteMutex` once its
`callRequestVote` has returned `voteGranted` (lines 471-487). -/
def tallyVote (rf : Raft) (t : Tally) (voteGranted : Bool) : Raft × Tally :=
  if voteGranted = true ∧ t.electionFinished = false then
    let votes := t.votes + 1
    if votes * 2 > (rf.npeers : Int) then
      (promote rf, { votes := votes, electionFinished := true })
    else
      (rf, { votes := votes, electionFinished := t.electionFinished })
  else (rf, t)

/-! ## One peer under an arbitrary sequence of operations -/

/-- One critical section run on a peer, with its arguments. -/
inductive Op where
  | requestVote (now : Nat) (args : RequestVoteArgs)
  | appendEntries (now : Nat) (args : AppendEntriesArgs)
  | start (command : Option Nat)
  | kill
  | startElection (now : Nat)
  | voteReply (term : Int) (reply : RequestVoteReply)
  | appendReply (term : Int) (reply : AppendEntriesReply)
  | tally (t : Tally) (voteGranted : Bool)
  deriving DecidableEq, Repr

/-- The state after one operation; `none` when the operation aborts. -/
def applyOp (rf : Raft) : Op → Option Raft
  | .requestVote now args => (RequestVote rf now args).map Prod.fst
  | .appendEntries now args => (AppendEntries rf now args).map Prod.fst
  | .start command => some (Start rf command).1
  | .kill => some (Kill rf)
  | .startElection now => (startElection rf now).map Prod.fst
  | .voteReply term reply => some (callRequestVote rf term reply).1
  | .appendReply term reply => some (callAppendEntries rf term reply).1
  | .tally t voteGranted => some (tallyVote rf t voteGranted).1

/-- The term a handler puts in its reply, for the two operations that reply. -/
def replyTerm (rf : Raft) : Op → Option Int
  | .requestVote now args => (RequestVote rf now args).map (fun r => r.2.Term)
  | .appendEntries now args => (AppendEntries rf now args).map (fun r => r.2.Term)
  | _ => none

/-- The vote an operation casts, as `(term, candidate)`: a RequestVote that
replies `VoteGranted = true` casts `(reply.Term, args.CandidateId)`, and the
first part of `startElection` casts the self vote `(new currentTerm, rf.me)`. -/
def castVote (rf : Raft) : Op → Option (Int × Int)
  | .requestVote now args =>
    match RequestVote rf now args with
    | some (_, reply) =>
      if reply.VoteGranted = true then some (reply.Term, args.CandidateId) else none
    | none => none
  | .startElection now =>
    match startElection rf now with
    | some (rf1, _) => some (rf1.currentTerm, rf1.me)
    | none => none
  | _ => none

/-- The state after a sequence of operations; `none` when one of them aborts. -/
def runOps (rf : Raft) : List Op → Option Raft
  | [] => some rf
  | op :: ops =>
    match applyOp rf op with
    | some rf1 => runOps rf1 ops
    | none => none

/-- The votes cast along a sequence of operations, in order (the run ends at an
operation that aborts). -/
def votesCast (rf : Raft) : List Op → List (Int × Int)
  | [] => []
  | op :: ops =>
    match applyOp rf op with
    | some rf1 => (castVote rf op).toList ++ votesCast rf1 ops
    | none => []

/-- The operation is the first part of `startElection`, the one operation that
increments currentTerm. -/
def startsElection : Op → Bool
  | .startElection _ => true
  | _ => false

/-- Along the run of `ops` from `rf`, no `startElection` is run on a state whose
currentTerm is the largest `int`, where `rf.currentTerm++` wraps around. -/
def incrementsInRange (rf : Raft) : List Op → Bool
  | [] => true
  | op :: ops =>
    (!startsElection op || decide (rf.currentTerm < maxInt64)) &&
    match applyOp rf op with
    | some rf1 => incrementsInRange rf1 ops
    | none => true

/-- The candidate id an operation carries, if it is a RequestVote. -/
def candidateOf : Op → Option Int
  | .requestVote _ args => some args.CandidateId
  | _ => none

/-- The votes of a list agree: two votes of one term name one candidate. -/
def VotesAgree (l : List (Int × Int)) : Prop :=
  ∀ v ∈ l, ∀ w ∈ l, v.1 = w.1 → v.2 = w.2

/-- What a peer state records about the votes cast so far: none of them is for
-1, none is of a later term, and a vote of the current term is in votedFor. -/
def VotesRecorded (rf : Raft) (l : List (Int × Int)) : Prop :=
  ∀ v ∈ l, v.2 ≠ -1 ∧ v.1 ≤ rf.currentTerm ∧ (v.1 = rf.currentTerm → rf.votedFor = v.2)

/-- The log holds the sentinel at index 0 and commitIndex points into the log. -/
def WellFormed (rf : Raft) : Prop :=
  (∃ e l, rf.log = e :: l ∧ e.Term = 0) ∧
    0 ≤ rf.commitIndex ∧ rf.commitIndex ≤ (rf.log.length : Int) - 1

/-- An AppendEntries operation carries a non-negative PrevLogIndex (other
operations have no such argument). -/
def prevLogIndexOk : Op → Prop
  | .appendEntries _ args => 0 ≤ args.PrevLogIndex
  | _ => True

/-! ## A cluster of peers

One step is one critical section of one peer.  Calls are messages in flight;
a message can be delivered after any delay and in any order, or be lost; each
message is delivered at most once. -/

/-- A call in flight.  `election` names the run of `startElection` whose
goroutine made the call and waits for the reply; `term` of a reply is the term
the call was dispatched with. -/
inductive Msg where
  | voteRequest (election src dst : Nat) (args : RequestVoteArgs)
  | voteReply (election src dst : Nat) (term : Int) (reply : RequestVoteReply)
  | appendRequest (src dst : Nat) (args : AppendEntriesArgs)
  | appendReply (src dst : Nat) (term : Int) (reply : AppendEntriesReply)
  deriving DecidableEq, Repr

/-- One run of `startElection`: the peer that runs it, what its first part
saved, and the variables its goroutines share. -/
structure Election where
  owner : Nat
  snapshot : ElectionSnapshot
  tally : Tally
  deriving DecidableEq, Repr

/-- The peers, the calls in flight, the elections started so far, and the
goroutines whose `callRequestVote` has returned and which have not yet run the
tally block: `(election, voteGranted)`.  `clock` is the time in milliseconds. -/
structure Cluster where
  clock : Nat
  peers : List Raft
  net : List Msg
  elections : List Election
  returned : List (Nat × Bool)
  deriving DecidableEq, Repr

/-- A cluster of `n` peers, each built by `Make` at time 0. -/
def Cluster.init (n : Nat) : Cluster :=
  { clock := 0
    peers := (List.range n).map (fun i => Make n (i : Int) 0)
    net := []
    elections := []
    returned := [] }

/-- The test of `electionChecker` (line 503) at time `now` for the drawn
`timeout` (milliseconds). -/
def electionDue (rf : Raft) (now timeout : Nat) : Bool :=
  decide (now - rf.timestamp > timeout) && decide (rf.state ≠ LEADER)

/-- The servers a peer calls: `for server := range rf.peers` without `rf.me`. -/
def otherServers (rf : Raft) : List Nat :=
  (List.range rf.npeers).filter (fun server => decide ((server : Int) ≠ rf.me))

/-- One step of the cluster. -/
inductive Action where
  | timeout (i now tmo : Nat)
  | deliver (k now : Nat)
  | lose (k : Nat)
  | tally (k : Nat)
  | heartbeat (i : Nat)
  | start (i : Nat) (command : Option Nat)
  | kill (i : Nat)
  deriving DecidableEq, Repr

/-- The step `timeout i now tmo`: `electionChecker` of peer `i` draws `tmo` in
`[500, 1000)`, finds the election due at time `now`, and `startElection` runs
its first part and dispatches its calls. -/
def Cluster.timeout (c : Cluster) (i now tmo : Nat) : Option Cluster :=
  match c.peers[i]? with
  | none => none
  | some rf =>
    if c.clock ≤ now ∧ 500 ≤ tmo ∧ tmo < 1000 ∧ killed rf = false ∧
        electionDue rf now tmo = true then
      match startElection rf now with
      | none => none
      | some (rf1, s) =>
        some { c with
          clock := now
          peers := c.peers.set i rf1
          elections := c.elections ++ [{ owner := i, snapshot := s, tally := Tally.init }]
          net := c.net ++ (otherServers rf1).map (fun server =>
            Msg.voteRequest c.elections.length i server
              (requestVoteArgs rf1 s.term s.lastlogidx s.lastlogterm)) }
    else none

/-- The step `deliver k now`: the `k`-th call in flight reaches its destination
at time `now`; a request runs the handler and puts the reply in flight, a reply
runs the locked part of the caller. -/
def Cluster.deliver (c : Cluster) (k now : Nat) : Option Cluster :=
  if c.clock ≤ now then
    match c.net[k]? with
    | none => none
    | some (.voteRequest e src dst args) =>
      match c.peers[dst]? with
      | none => none
      | some rf =>
        match RequestVote rf now args with
        | none => none
        | some (rf1, reply) =>
          some { c with
            clock := now
            peers := c.peers.set dst rf1
            net := c.net.eraseIdx k ++ [Msg.voteReply e dst src args.Term reply] }
    | some (.voteReply e _ dst term reply) =>
      match c.peers[dst]? with
      | none => none
      | some rf =>
        some { c with
          clock := now
          peers := c.peers.set dst (callRequestVote rf term reply).1
          net := c.net.eraseIdx k
          returned := c.returned ++ [(e, (callRequestVote rf term reply).2)] }
    | some (.appendRequest src dst args) =>
      match c.peers[dst]? with
      | none => none
      | some rf =>
        match AppendEntries rf now args with
        | none => none
        | some (rf1, reply) =>
          some { c with
            clock := now
            peers := c.peers.set dst rf1
            net := c.net.eraseIdx k ++ [Msg.appendReply dst src args.Term reply] }
    | some (.appendReply _ dst term reply) =>
      match c.peers[dst]? with
      | none => none
      | some rf =>
        some { c with
          clock := now
          peers := c.peers.set dst (callAppendEntries rf term reply).1
          net := c.net.eraseIdx k }
  else none

/-- The step `tally k`: the `k`-th returned goroutine runs the tally block of
its election on the peer that owns the election. -/
def Cluster.tally (c : Cluster) (k : Nat) : Option Cluster :=
  match c.returned[k]? with
  | none => none
  | some (e, voteGranted) =>
    match c.elections[e]? with
    | none => none
    | some el =>
      match c.peers[el.owner]? with
      | none => none
      | some rf =>
        some { c with
          peers := c.peers.set el.owner (tallyVote rf el.tally voteGranted).1
          elections := c.elections.set e
            { el with tally := (tallyVote rf el.tally voteGranted).2 }
          returned := c.returned.eraseIdx k }

/-- The step `heartbeat i`: one round of `leaderHeartBeat` on peer `i`
(lines 392-408). -/
def Cluster.heartbeat (c : Cluster) (i : Nat) : Option Cluster :=
  match c.peers[i]? with
  | none => none
  | some rf =>
    if killed rf = true ∨ rf.state ≠ LEADER then none
    else
      some { c with
        net := c.net ++ (otherServers rf).map (fun server =>
          Msg.appendRequest i server
            (appendEntriesArgs rf rf.currentTerm 0 0 [] rf.commitIndex)) }

/-- One step of the cluster; `none` when the step is not possible. -/
def Cluster.step (c : Cluster) : Action → Option Cluster
  | .timeout i now tmo => c.timeout i now tmo
  | .deliver k now => c.deliver k now
  | .lose k => if k < c.net.length then some { c with net := c.net.eraseIdx k } else none
  | .tally k => c.tally k
  | .heartbeat i => c.heartbeat i
  | .start i command =>
    match c.peers[i]? with
    | none => none
    | some rf => some { c with peers := c.peers.set i (Start rf command).1 }
  | .kill i =>
    match c.peers[i]? with
    | none => none
    | some rf => some { c with peers := c.peers.set i (Kill rf) }

/-- The cluster after a sequence of steps. -/
def Cluster.run (c : Cluster) : List Action → Option Cluster
  | [] => some c
  | a :: as =>
    match c.step a with
    | some c1 => c1.run as
    | none => none

/-- The peers that are LEADER, with their current term: `(index, currentTerm)`. -/
def Cluster.leaders (c : Cluster) : List (Nat × Int) :=
  (c.peers.enum.filter (fun p => decide (p.2.state = LEADER))).map
    (fun p => (p.1, p.2.currentTerm))

/-- Election safety of a cluster state: no two distinct peers are LEADER with
the same currentTerm. -/
def ElectionSafety (c : Cluster) : Prop :=
  ∀ (i j : Nat) (rfi rfj : Raft), i ≠ j → c.peers[i]? = some rfi → c.peers[j]? = some rfj →
    rfi.state = LEADER → rfj.state = LEADER → rfi.currentTerm ≠ rfj.currentTerm

/-- A schedule of three peers in which peer 0 counts a vote of term 1 after it
has moved to term 2. -/
def lateTallySchedule : List Action :=
  [ .timeout 2 600 500,      -- peer 2 starts an election: term 1
    .lose 0, .lose 0,        -- both of its vote requests are lost
    .timeout 2 1200 500,     -- peer 2 starts an election: term 2
    .timeout 0 1200 700,     -- peer 0 starts an election: term 1
    .deliver 2 1201,         -- peer 1 handles the request of peer 0 and grants
    .deliver 3 1202,         -- peer 0 handles the reply: callRequestVote returns true
    .deliver 0 1203,         -- peer 0 handles the request of peer 2: term 2, grants
    .deliver 2 1204,         -- peer 2 handles the reply: callRequestVote returns true
    .tally 1,                -- peer 2 counts the vote of peer 0: LEADER in term 2
    .tally 0 ]               -- peer 0 counts the vote of peer 1: LEADER, in term 2

/-! ## Majority -/

/-- The test of line 474, `votes*2 > len(rf.peers)`. -/
def majorityTest (votes : Int) (npeers : Nat) : Prop := votes * 2 > (npeers : Int)

instance (votes : Int) (npeers : Nat) : Decidable (majorityTest votes npeers) :=
  inferInstanceAs (Decidable (votes * 2 > (npeers : Int)))

/-- The majority of the specification, `⌈(N+1)/2⌉` out of `N` peers. -/
def majority (npeers : Nat) : Int := ⌈((npeers : ℚ) + 1) / 2⌉

/-- The tally blocks of one election run one after the other on the values
their `callRequestVote` returned. -/
def tallyVotes (rf : Raft) (t : Tally) : List Bool → Raft × Tally
  | [] => (rf, t)
  | g :: gs => tallyVotes (tallyVote rf t g).1 (tallyVote rf t g).2 gs

/-- What holds of a peer and the tally of one of its elections after `k` grants
have been returned to the tally blocks, for a cluster of `n` peers. -/
def TallyInv (n : Nat) (rf0 rf : Raft) (t : Tally) (k : Nat) : Prop :=
  rf.npeers = n ∧
  (t.electionFinished = false →
    rf = rf0 ∧ t.votes = 1 + (k : Int) ∧ (1 ≤ k → ¬ t.votes * 2 > (n : Int))) ∧
  (t.electionFinished = true →
    1 ≤ k ∧ t.votes * 2 > (n : Int) ∧ t.votes ≤ 1 + (k : Int) ∧
    ((t.votes - 1) * 2 ≤ (n : Int) ∨ t.votes = 2) ∧ rf.state = LEADER)

/-! ## Theorems -/

/-! ### Machine arithmetic -/

theorem wrapInt64_of_inRange (n : Int) (h1 : minInt64 ≤ n) (h2 : n ≤ maxInt64) :
    wrapInt64 n = n := by
  unfold wrapInt64 minInt64 maxInt64 at *
  omega

theorem lt_wrapInt64_succ (n : Int) (h : n < maxInt64) : n < wrapInt64 (n + 1) := by
  unfold wrapInt64 maxInt64 at *
  omega

theorem float64OfInt_exact (n : Int) (h1 : -(2 ^ 53) ≤ n) (h2 : n ≤ 2 ^ 53) :
    float64OfInt n = n := by
  have : n.natAbs ≤ 2 ^ 53 := by omega
  unfold float64OfInt
  simp only
  rw [if_pos this]

theorem float64Exp_le (fuel m : Nat) (h : 2 ^ 52 ≤ m) :
    2 ^ 52 * 2 ^ float64Exp fuel m ≤ m := by
  induction fuel generalizing m with
  | zero => simpa [float64Exp] using h
  | succ k ih =>
    unfold float64Exp
    split_ifs with h1
    · simpa using h
    · have h2 : 2 ^ 52 ≤ m / 2 := by omega
      have h3 := ih (m / 2) h2
      have h4 : 2 ^ (float64Exp k (m / 2) + 1) = 2 ^ float64Exp k (m / 2) * 2 := pow_succ _ _
      rw [h4]
      generalize 2 ^ float64Exp k (m / 2) = x at h3 ⊢
      omega

theorem float64OfInt_large (n : Int) (h : 2 ^ 53 ≤ n) : 2 ^ 53 ≤ float64OfInt n := by
  unfold float64OfInt
  simp only
  split_ifs with h1 h2
  · exact h
  all_goals
    have hm : 2 ^ 53 < n.natAbs := not_le.mp h1
    have hpos : 0 < n := by omega
    rw [Int.sign_eq_one_of_pos hpos, one_mul]
    have hle := float64Exp_le 11 n.natAbs (by omega)
    have hu : 0 < 2 ^ float64Exp 11 n.natAbs := pow_pos (by norm_num) _
    have he : float64Exp 11 n.natAbs = float64Exp 10 (n.natAbs / 2) + 1 := by
      conv_lhs => unfold float64Exp
      rw [if_neg (by omega)]
    have hu2 : 2 ≤ 2 ^ float64Exp 11 n.natAbs := by
      rw [he, pow_succ]
      have : 0 < 2 ^ float64Exp 10 (n.natAbs / 2) := pow_pos (by norm_num) _
      omega
    have hq : 2 ^ 52 ≤ n.natAbs / 2 ^ float64Exp 11 n.natAbs := by
      rw [Nat.le_div_iff_mul_le hu]
      exact hle
    have hprod : 2 ^ 53 ≤ n.natAbs / 2 ^ float64Exp 11 n.natAbs *
        2 ^ float64Exp 11 n.natAbs := by
      calc 2 ^ 53 = 2 ^ 52 * 2 := by norm_num
        _ ≤ n.natAbs / 2 ^ float64Exp 11 n.natAbs * 2 ^ float64Exp 11 n.natAbs :=
          Nat.mul_le_mul hq hu2
    first
    | (have : 2 ^ 53 ≤ (n.natAbs / 2 ^ float64Exp 11 n.natAbs + 1) *
          2 ^ float64Exp 11 n.natAbs := by
         calc 2 ^ 53 ≤ n.natAbs / 2 ^ float64Exp 11 n.natAbs *
               2 ^ float64Exp 11 n.natAbs := hprod
           _ ≤ _ := Nat.mul_le_mul_right _ (Nat.le_succ _)
       exact_mod_cast this)
    | exact_mod_cast hprod

theorem float64OfInt_rounds_to_even :
    float64OfInt (-9007199254740993) = -9007199254740992 ∧
    float64OfInt 9007199254740995 = 9007199254740996 ∧
    float64OfInt 9223372036854775807 = 9223372036854775808 := by
  decide

theorem commitBound_eq_min (lc b : Int) (h : -(2 ^ 53) ≤ lc) : commitBound lc b = min lc b := by
  unfold commitBound
  split_ifs with hb
  · by_cases hl : lc ≤ 2 ^ 53
    · rw [float64OfInt_exact lc h hl]
    · have h1 := float64OfInt_large lc (by omega)
      rw [min_eq_right (by omega), min_eq_right (by omega)]
  · rfl

/-! ### Indexing -/

theorem logAt_last (log : List LogEntry) (h : log ≠ []) :
    logAt log ((log.length : Int) - 1) = some (log.getLast h) := by
  have hpos : 0 < log.length := List.length_pos.mpr h
  have h0 : (0 : Int) ≤ (log.length : Int) - 1 := by omega
  have h1 : ((log.length : Int) - 1).toNat = log.length - 1 := by omega
  simp only [logAt, h0, if_true, h1]
  rw [List.getLast_eq_getElem]
  exact List.getElem?_eq_getElem _

theorem logAt_of_lt (log : List LogEntry) (i : Int) (h0 : 0 ≤ i)
    (h1 : i < (log.length : Int)) :
    ∃ e, logAt log i = some e ∧ log[i.toNat]? = some e := by
  have h2 : i.toNat < log.length := by omega
  exact ⟨log[i.toNat], by simp [logAt, h0, List.getElem?_eq_getElem h2],
    List.getElem?_eq_getElem h2⟩

/-! ### RequestVote -/

theorem requestVote_result (rf : Raft) (now : Nat) (args : RequestVoteArgs)
    (hlog : rf.log ≠ []) (hterm : args.Term ≥ rf.currentTerm) :
    ∃ rf1 reply, RequestVote rf now args = some (rf1, reply) ∧
      (reply.VoteGranted = true ↔
        (((if args.Term > rf.currentTerm then (-1 : Int) else rf.votedFor) = -1 ∨
          (if args.Term > rf.currentTerm then (-1 : Int) else rf.votedFor)
            = args.CandidateId) ∧
         (args.LastLogTerm > (rf.log.getLast hlog).Term ∨
          (args.LastLogTerm = (rf.log.getLast hlog).Term ∧
            args.LastLogIndex ≥ (rf.log.length : Int) - 1)))) ∧
      (reply.VoteGranted = true → rf1.votedFor = args.CandidateId) ∧
      (args.LastLogTerm = (rf.log.getLast hlog).Term →
        args.LastLogIndex < (rf.log.length : Int) - 1 → reply.VoteGranted = false) := by
  have hnlt : ¬ args.Term < rf.currentTerm := not_lt.mpr hterm
  have hlast := logAt_last rf.log hlog
  by_cases hgt : args.Term > rf.currentTerm
  · by_cases hup : args.LastLogTerm > (rf.log.getLast hlog).Term ∨
        (args.LastLogTerm = (rf.log.getLast hlog).Term ∧
          args.LastLogIndex ≥ (rf.log.length : Int) - 1)
    · simp only [RequestVote, hnlt, if_false, hgt, if_true, stepDown, true_or, hlast, hup]
      refine ⟨_, _, rfl, ?_, ?_, ?_⟩
      · simp
      · intro _; rfl
      · intro h1 h2
        rcases hup with h | ⟨_, h⟩ <;> omega
    · simp only [RequestVote, hnlt, if_false, hgt, if_true, stepDown, true_or, hlast, hup]
      refine ⟨_, _, rfl, ?_, ?_, ?_⟩
      · simp
      · intro h; simp at h
      · intro _ _; rfl
  · by_cases hv : rf.votedFor = -1 ∨ rf.votedFor = args.CandidateId
    · by_cases hup : args.LastLogTerm > (rf.log.getLast hlog).Term ∨
          (args.LastLogTerm = (rf.log.getLast hlog).Term ∧
            args.LastLogIndex ≥ (rf.log.length : Int) - 1)
      · simp only [RequestVote, hnlt, if_false, hgt, hv, if_true, hlast, hup]
        refine ⟨_, _, rfl, ?_, ?_, ?_⟩
        · simp
        · intro _; rfl
        · intro h1 h2
          rcases hup with h | ⟨_, h⟩ <;> omega
      · simp only [RequestVote, hnlt, if_false, hgt, hv, if_true, hlast, hup]
        refine ⟨_, _, rfl, ?_, ?_, ?_⟩
        · simp
        · intro h; simp at h
        · intro _ _; rfl
    · simp only [RequestVote, hnlt, if_false, hgt, hv]
      refine ⟨_, _, rfl, ?_, ?_, ?_⟩
      · simp
      · intro h; simp at h
      · intro _ _; rfl

/-- C1. RequestVote grant rule: on a peer with a non-empty log, a request with
`args.Term >= currentTerm` is answered, and the answer has `VoteGranted = true`
exactly when votedFor (after the step-down that resets it to -1 when
`args.Term > currentTerm`) is -1 or the candidate and the candidate log is at
least as up-to-date as the last entry of the peer; a grant records the candidate
in votedFor; equal last terms with a strictly smaller last index are refused. -/
theorem requestVote_grant_rule (rf : Raft) (now : Nat) (args : RequestVoteArgs)
    (hlog : rf.log ≠ []) (hterm : args.Term ≥ rf.currentTerm) :
    ∃ rf1 reply, RequestVote rf now args = some (rf1, reply) ∧
      (reply.VoteGranted = true ↔
        (((if args.Term > rf.currentTerm then (-1 : Int) else rf.votedFor) = -1 ∨
          (if args.Term > rf.currentTerm then (-1 : Int) else rf.votedFor)
            = args.CandidateId) ∧
         (args.LastLogTerm > (rf.log.getLast hlog).Term ∨
          (args.LastLogTerm = (rf.log.getLast hlog).Term ∧
            args.LastLogIndex ≥ (rf.log.length : Int) - 1)))) ∧
      (reply.VoteGranted = true → rf1.votedFor = args.CandidateId) ∧
      (args.LastLogTerm = (rf.log.getLast hlog).Term →
        args.LastLogIndex < (rf.log.length : Int) - 1 → reply.VoteGranted = false) :=
  requestVote_result rf now args hlog hterm

/-- Witness of C1: a fresh peer grants its vote to candidate 0 in term 1. -/
theorem requestVote_grant_rule_witness :
    ∃ rf1 reply, RequestVote (Make 3 1 0) 5 ⟨1, 0, 0, 0⟩ = some (rf1, reply) ∧
      reply.VoteGranted = true ∧ rf1.votedFor = 0 := by
  have hlog : (Make 3 1 0).log ≠ [] := by simp [Make]
  obtain ⟨rf1, reply, h, hiff, hv, _⟩ :=
    requestVote_grant_rule (Make 3 1 0) 5 ⟨1, 0, 0, 0⟩ hlog (by simp [Make])
  have hg : reply.VoteGranted = true := by
    apply hiff.mpr
    simp [Make]
  exact ⟨rf1, reply, h, hg, hv hg⟩

/-! ### Frame facts of the operations -/

theorem reinitLeader_frame (rf : Raft) :
    (reinitLeader rf).currentTerm = rf.currentTerm ∧
    (reinitLeader rf).votedFor = rf.votedFor ∧
    (reinitLeader rf).me = rf.me ∧
    (reinitLeader rf).log = rf.log ∧
    (reinitLeader rf).commitIndex = rf.commitIndex ∧
    (reinitLeader rf).state = rf.state ∧
    (reinitLeader rf).npeers = rf.npeers ∧
    (reinitLeader rf).dead = rf.dead ∧
    (reinitLeader rf).lastApplied = rf.lastApplied ∧
    (reinitLeader rf).timestamp = rf.timestamp := by
  unfold reinitLeader
  generalize List.range rf.npeers = l
  induction l generalizing rf with
  | nil => simp
  | cons i l ih =>
    simp only [List.foldl_cons]
    have := ih { rf with nextIndex := rf.nextIndex.set i (rf.log.length : Int),
                         matchIndex := rf.matchIndex.set i 0 }
    simpa using this

theorem requestVote_frame (rf rf1 : Raft) (now : Nat) (args : RequestVoteArgs)
    (reply : RequestVoteReply) (h : RequestVote rf now args = some (rf1, reply)) :
    rf1.me = rf.me ∧ rf1.log = rf.log ∧ rf1.commitIndex = rf.commitIndex ∧
    rf1.npeers = rf.npeers ∧ rf.currentTerm ≤ rf1.currentTerm ∧
    rf.currentTerm ≤ reply.Term ∧
    (reply.VoteGranted = true → reply.Term = rf1.currentTerm) ∧
    (rf1.currentTerm = rf.currentTerm → rf1.votedFor = rf.votedFor ∨ rf.votedFor = -1) ∧
    (reply.VoteGranted = true → rf1.votedFor = args.CandidateId) := by
  unfold RequestVote at h
  by_cases h1 : args.Term < rf.currentTerm
  · simp only [h1, if_true, Option.some.injEq, Prod.mk.injEq] at h
    obtain ⟨rfl, rfl⟩ := h
    simp
  · simp only [h1, if_false] at h
    by_cases h2 : args.Term > rf.currentTerm
    · simp only [h2, if_true, stepDown, true_or] at h
      split at h
      · simp at h
      · split_ifs at h <;>
        · simp only [Option.some.injEq, Prod.mk.injEq] at h
          obtain ⟨rfl, rfl⟩ := h
          simp
          omega
    · simp only [h2, if_false] at h
      have h3 : args.Term = rf.currentTerm := by omega
      split_ifs at h with h4
      · split at h
        · simp at h
        · split_ifs at h <;>
          · simp only [Option.some.injEq, Prod.mk.injEq] at h
            obtain ⟨rfl, rfl⟩ := h
            simp
            try tauto
      · simp only [Option.some.injEq, Prod.mk.injEq] at h
        obtain ⟨rfl, rfl⟩ := h
        simp

theorem appendEntries_frame (rf rf1 : Raft) (now : Nat) (args : AppendEntriesArgs)
    (reply : AppendEntriesReply) (h : AppendEntries rf now args = some (rf1, reply)) :
    rf1.me = rf.me ∧ rf1.log = rf.log ∧ rf1.npeers = rf.npeers ∧
    rf.currentTerm ≤ rf1.currentTerm ∧ reply.Term = rf1.currentTerm ∧
    (rf1.currentTerm = rf.currentTerm → rf1.votedFor = rf.votedFor) ∧
    (rf1.commitIndex = rf.commitIndex ∨
      (rf.commitIndex < args.LeaderCommit ∧
        rf1.commitIndex = commitBound args.LeaderCommit ((rf.log.length : Int) - 1))) := by
  unfold AppendEntries at h
  by_cases h2 : args.Term > rf.currentTerm
  · simp only [h2, if_true, stepDown] at h
    split_ifs at h
    all_goals
      first
      | (simp only [Option.some.injEq, Prod.mk.injEq] at h
         obtain ⟨rfl, rfl⟩ := h
         simp
         try omega)
      | (split at h
         · simp at h
         · split_ifs at h <;>
           · simp only [Option.some.injEq, Prod.mk.injEq] at h
             obtain ⟨rfl, rfl⟩ := h
             simp
             try omega)
  · simp only [h2, if_false] at h
    split_ifs at h
    all_goals
      first
      | (simp only [Option.some.injEq, Prod.mk.injEq] at h
         obtain ⟨rfl, rfl⟩ := h
         simp
         try omega)
      | (split at h
         · simp at h
         · split_ifs at h <;>
           · simp only [Option.some.injEq, Prod.mk.injEq] at h
             obtain ⟨rfl, rfl⟩ := h
             simp
             try omega)

theorem start_frame (rf : Raft) (command : Option Nat) :
    (Start rf command).1.me = rf.me ∧ (Start rf command).1.npeers = rf.npeers ∧
    (Start rf command).1.currentTerm = rf.currentTerm ∧
    (Start rf command).1.votedFor = rf.votedFor ∧
    (Start rf command).1.commitIndex = rf.commitIndex ∧
    ((Start rf command).1.log = rf.log ∨
      (Start rf command).1.log = rf.log ++ [{ Term := rf.currentTerm, Command := command }]) := by
  unfold Start
  split_ifs <;> simp

theorem startElection_frame (rf rf1 : Raft) (now : Nat) (s : ElectionSnapshot)
    (h : startElection rf now = some (rf1, s)) :
    rf1 = { rf with currentTerm := wrapInt64 (rf.currentTerm + 1), votedFor := rf.me,
                    state := CANDIDATE, timestamp := now } ∧
    s.term = wrapInt64 (rf.currentTerm + 1) ∧ s.lastlogidx = (rf.log.length : Int) - 1 ∧
    ∃ e, logAt rf.log ((rf.log.length : Int) - 1) = some e ∧ s.lastlogterm = e.Term := by
  unfold startElection at h
  simp only at h
  split at h
  · simp at h
  · rename_i e he
    simp only [Option.some.injEq, Prod.mk.injEq] at h
    obtain ⟨rfl, rfl⟩ := h
    exact ⟨rfl, rfl, rfl, e, he, rfl⟩

theorem callRequestVote_frame (rf : Raft) (term : Int) (reply : RequestVoteReply) :
    (callRequestVote rf term reply).1.me = rf.me ∧
    (callRequestVote rf term reply).1.npeers = rf.npeers ∧
    rf.currentTerm ≤ (callRequestVote rf term reply).1.currentTerm ∧
    ((callRequestVote rf term reply).1.currentTerm = rf.currentTerm →
      (callRequestVote rf term reply).1.votedFor = rf.votedFor) ∧
    (callRequestVote rf term reply).1.log = rf.log ∧
    (callRequestVote rf term reply).1.commitIndex = rf.commitIndex := by
  unfold callRequestVote
  split_ifs <;> simp [stepDown]; omega

theorem callAppendEntries_frame (rf : Raft) (term : Int) (reply : AppendEntriesReply) :
    (callAppendEntries rf term reply).1.me = rf.me ∧
    (callAppendEntries rf term reply).1.npeers = rf.npeers ∧
    rf.currentTerm ≤ (callAppendEntries rf term reply).1.currentTerm ∧
    ((callAppendEntries rf term reply).1.currentTerm = rf.currentTerm →
      (callAppendEntries rf term reply).1.votedFor = rf.votedFor) ∧
    (callAppendEntries rf term reply).1.log = rf.log ∧
    (callAppendEntries rf term reply).1.commitIndex = rf.commitIndex := by
  unfold callAppendEntries
  split_ifs <;> simp [stepDown]; omega

theorem promote_frame (rf : Raft) :
    (promote rf).currentTerm = rf.currentTerm ∧
    (promote rf).votedFor = rf.votedFor ∧
    (promote rf).me = rf.me ∧
    (promote rf).log = rf.log ∧
    (promote rf).commitIndex = rf.commitIndex ∧
    (promote rf).state = LEADER ∧
    (promote rf).npeers = rf.npeers ∧
    (promote rf).dead = rf.dead ∧
    (promote rf).lastApplied = rf.lastApplied ∧
    (promote rf).timestamp = rf.timestamp := by
  obtain ⟨h1, h2, h3, h4, h5, h6, h7, h8, h9, h10⟩ :=
    reinitLeader_frame { rf with state := LEADER }
  exact ⟨h1, h2, h3, h4, h5, h6, h7, h8, h9, h10⟩

theorem tallyVote_frame (rf : Raft) (t : Tally) (g : Bool) :
    (tallyVote rf t g).1.me = rf.me ∧
    (tallyVote rf t g).1.npeers = rf.npeers ∧
    (tallyVote rf t g).1.currentTerm = rf.currentTerm ∧
    (tallyVote rf t g).1.votedFor = rf.votedFor ∧
    (tallyVote rf t g).1.log = rf.log ∧
    (tallyVote rf t g).1.commitIndex = rf.commitIndex := by
  obtain ⟨h1, h2, h3, h4, h5, _, h7, _⟩ := promote_frame rf
  unfold tallyVote
  by_cases hg : g = true ∧ t.electionFinished = false
  · by_cases hm : (t.votes + 1) * 2 > (rf.npeers : Int)
    · simp only [hg, and_self, if_true, hm]
      exact ⟨h3, h7, h1, h2, h4, h5⟩
    · simp [hg, hm]
  · simp [hg]

/-! ### One operation on one peer -/

theorem applyOp_frame (rf rf1 : Raft) (op : Op) (h : applyOp rf op = some rf1) :
    rf1.me = rf.me ∧ rf1.npeers = rf.npeers ∧
    ((startsElection op = true → rf.currentTerm < maxInt64) →
      rf.currentTerm ≤ rf1.currentTerm ∧
      (rf1.currentTerm = rf.currentTerm → rf1.votedFor = rf.votedFor ∨ rf.votedFor = -1)) ∧
    (∃ suf, rf1.log = rf.log ++ suf) ∧
    (rf1.commitIndex = rf.commitIndex ∨
      ∃ lc, rf.commitIndex < lc ∧ rf1.commitIndex = commitBound lc ((rf.log.length : Int) - 1)) := by
  cases op with
  | requestVote now args =>
    simp only [applyOp, Option.map_eq_some', Prod.exists, exists_and_right, exists_eq_right] at h
    obtain ⟨reply, h⟩ := h
    obtain ⟨h1, h2, h3, h4, h5, _, _, h8, _⟩ := requestVote_frame rf rf1 now args reply h
    exact ⟨h1, h4, fun _ => ⟨h5, h8⟩, ⟨[], by simp [h2]⟩, Or.inl h3⟩
  | appendEntries now args =>
    simp only [applyOp, Option.map_eq_some', Prod.exists, exists_and_right, exists_eq_right] at h
    obtain ⟨reply, h⟩ := h
    obtain ⟨h1, h2, h3, h4, _, h6, h7⟩ := appendEntries_frame rf rf1 now args reply h
    refine ⟨h1, h3, fun _ => ⟨h4, fun e => Or.inl (h6 e)⟩, ⟨[], by simp [h2]⟩, ?_⟩
    rcases h7 with h7 | ⟨h7, h8⟩
    · exact Or.inl h7
    · exact Or.inr ⟨args.LeaderCommit, h7, h8⟩
  | start command =>
    simp only [applyOp, Option.some.injEq] at h
    subst h
    obtain ⟨h1, h2, h3, h4, h5, h6⟩ := start_frame rf command
    refine ⟨h1, h2, fun _ => ⟨le_of_eq h3.symm, fun _ => Or.inl h4⟩, ?_, Or.inl h5⟩
    rcases h6 with h6 | h6
    · exact ⟨[], by simp [h6]⟩
    · exact ⟨_, h6⟩
  | kill =>
    simp only [applyOp, Option.some.injEq] at h
    subst h
    simp [Kill]
  | startElection now =>
    simp only [applyOp, Option.map_eq_some', Prod.exists, exists_and_right, exists_eq_right] at h
    obtain ⟨s, h⟩ := h
    obtain ⟨rfl, _⟩ := startElection_frame rf rf1 now s h
    refine ⟨rfl, rfl, fun hw => ?_, ⟨[], by simp⟩, Or.inl rfl⟩
    have hlt := lt_wrapInt64_succ rf.currentTerm (hw rfl)
    exact ⟨le_of_lt hlt, fun e => absurd e (ne_of_gt hlt)⟩
  | voteReply term reply =>
    simp only [applyOp, Option.some.injEq] at h
    subst h
    obtain ⟨h1, h2, h3, h4, h5, h6⟩ := callRequestVote_frame rf term reply
    exact ⟨h1, h2, fun _ => ⟨h3, fun e => Or.inl (h4 e)⟩, ⟨[], by simp [h5]⟩, Or.inl h6⟩
  | appendReply term reply =>
    simp only [applyOp, Option.some.injEq] at h
    subst h
    obtain ⟨h1, h2, h3, h4, h5, h6⟩ := callAppendEntries_frame rf term reply
    exact ⟨h1, h2, fun _ => ⟨h3, fun e => Or.inl (h4 e)⟩, ⟨[], by simp [h5]⟩, Or.inl h6⟩
  | tally t g =>
    simp only [applyOp, Option.some.injEq] at h
    subst h
    obtain ⟨h1, h2, h3, h4, h5, h6⟩ := tallyVote_frame rf t g
    exact ⟨h1, h2, fun _ => ⟨le_of_eq h3.symm, fun _ => Or.inl h4⟩, ⟨[], by simp [h5]⟩,
      Or.inl h6⟩

theorem applyOp_isSome (rf : Raft) (op : Op) (hlog : rf.log ≠ [])
    (hp : prevLogIndexOk op) : ∃ rf1, applyOp rf op = some rf1 := by
  have hlast := logAt_last rf.log hlog
  cases op with
  | requestVote now args =>
    by_cases h1 : args.Term < rf.currentTerm
    · simp [applyOp, RequestVote, h1]
    · obtain ⟨rf1, reply, h, _⟩ :=
        requestVote_result rf now args hlog (not_lt.mp h1)
      exact ⟨rf1, by simp [applyOp, h]⟩
  | appendEntries now args =>
    simp only [prevLogIndexOk] at hp
    simp only [applyOp, AppendEntries]
    split_ifs with h1 h2 h3 h4
    all_goals first
      | exact ⟨_, rfl⟩
      | (simp only [ge_iff_le, not_le] at *
         obtain ⟨e, he, _⟩ := logAt_of_lt rf.log args.PrevLogIndex hp (by assumption)
         simp only [stepDown, he]
         split_ifs <;> exact ⟨_, rfl⟩)
  | start command => exact ⟨_, rfl⟩
  | kill => exact ⟨_, rfl⟩
  | startElection now =>
    simp only [applyOp, startElection, hlast]
    exact ⟨_, rfl⟩
  | voteReply term reply => exact ⟨_, rfl⟩
  | appendReply term reply => exact ⟨_, rfl⟩
  | tally t g => exact ⟨_, rfl⟩

/-! ### One vote per term -/

theorem castVote_recorded (rf rf1 : Raft) (op : Op) (v : Int × Int)
    (h : applyOp rf op = some rf1) (hv : castVote rf op = some v) :
    v.1 = rf1.currentTerm ∧ v.2 = rf1.votedFor ∧
    (v.2 = rf.me ∨ candidateOf op = some v.2) := by
  cases op with
  | requestVote now args =>
    simp only [applyOp, Option.map_eq_some', Prod.exists, exists_and_right, exists_eq_right] at h
    obtain ⟨reply, h⟩ := h
    obtain ⟨_, _, _, _, _, _, h7, _, h9⟩ := requestVote_frame rf rf1 now args reply h
    simp only [castVote, h] at hv
    split_ifs at hv with hg
    simp only [Option.some.injEq] at hv
    subst hv
    exact ⟨h7 hg, (h9 hg).symm, Or.inr rfl⟩
  | startElection now =>
    simp only [applyOp, Option.map_eq_some', Prod.exists, exists_and_right, exists_eq_right] at h
    obtain ⟨s, h⟩ := h
    simp only [castVote, h, Option.some.injEq] at hv
    subst hv
    obtain ⟨rfl, _⟩ := startElection_frame rf rf1 now s h
    exact ⟨rfl, rfl, Or.inl rfl⟩
  | appendEntries now args => simp [castVote] at hv
  | start command => simp [castVote] at hv
  | kill => simp [castVote] at hv
  | voteReply term reply => simp [castVote] at hv
  | appendReply term reply => simp [castVote] at hv
  | tally t g => simp [castVote] at hv

theorem votes_step (rf rf1 : Raft) (op : Op) (pre : List (Int × Int))
    (hme : rf.me ≠ -1) (hc : candidateOf op ≠ some (-1))
    (hin : startsElection op = true → rf.currentTerm < maxInt64)
    (h : applyOp rf op = some rf1) (hr : VotesRecorded rf pre) (ha : VotesAgree pre) :
    VotesRecorded rf1 (pre ++ (castVote rf op).toList) ∧
      VotesAgree (pre ++ (castVote rf op).toList) := by
  obtain ⟨hle, hvf⟩ := (applyOp_frame rf rf1 op h).2.2.1 hin
  have hold : ∀ v ∈ pre, v.2 ≠ -1 ∧ v.1 ≤ rf1.currentTerm ∧
      (v.1 = rf1.currentTerm → rf1.votedFor = v.2) := by
    intro v hv
    obtain ⟨h1, h2, h3⟩ := hr v hv
    refine ⟨h1, le_trans h2 hle, fun e => ?_⟩
    have e1 : rf1.currentTerm = rf.currentTerm := by omega
    have e2 : rf.votedFor = v.2 := h3 (by omega)
    rcases hvf e1 with h4 | h4
    · rw [h4, e2]
    · exact absurd (e2 ▸ h4) h1
  cases hcv : castVote rf op with
  | none => simpa using ⟨hold, ha⟩
  | some w =>
    obtain ⟨w1, w2, w3⟩ := castVote_recorded rf rf1 op w h hcv
    have hw : w.2 ≠ -1 := by
      rcases w3 with w3 | w3
      · rw [w3]; exact hme
      · intro e
        rw [e] at w3
        exact hc w3
    simp only [Option.toList_some]
    constructor
    · intro v hv
      rcases List.mem_append.mp hv with hv | hv
      · exact hold v hv
      · simp only [List.mem_singleton] at hv
        subst hv
        exact ⟨hw, le_of_eq w1, fun _ => w2.symm⟩
    · intro v hv u hu e
      rcases List.mem_append.mp hv with hv1 | hv1 <;>
        rcases List.mem_append.mp hu with hu1 | hu1
      · exact ha v hv1 u hu1 e
      · have hu2 : u = w := List.mem_singleton.mp hu1
        rw [hu2] at e ⊢
        rw [w2, (hold v hv1).2.2 (e.trans w1)]
      · have hv2 : v = w := List.mem_singleton.mp hv1
        rw [hv2] at e ⊢
        rw [w2, (hold u hu1).2.2 (e.symm.trans w1)]
      · rw [List.mem_singleton.mp hv1, List.mem_singleton.mp hu1]

theorem votes_agree_from (ops : List Op) :
    ∀ (rf : Raft) (pre : List (Int × Int)), rf.me ≠ -1 →
      (∀ op ∈ ops, candidateOf op ≠ some (-1)) → incrementsInRange rf ops = true →
      VotesRecorded rf pre → VotesAgree pre → VotesAgree (pre ++ votesCast rf ops) := by
  induction ops with
  | nil => intro rf pre _ _ _ _ ha; simpa [votesCast] using ha
  | cons op ops ih =>
    intro rf pre hme hc hin hr ha
    cases h : applyOp rf op with
    | none => simpa [votesCast, h] using ha
    | some rf1 =>
      simp only [incrementsInRange, h, Bool.and_eq_true, Bool.or_eq_true,
        Bool.not_eq_true', decide_eq_true_eq] at hin
      have hin1 : startsElection op = true → rf.currentTerm < maxInt64 := by
        intro hs
        rcases hin.1 with h1 | h1
        · rw [hs] at h1; exact absurd h1 (by decide)
        · exact h1
      obtain ⟨hr1, ha1⟩ :=
        votes_step rf rf1 op pre hme (hc op (List.mem_cons_self _ _)) hin1 h hr ha
      have hme1 : rf1.me ≠ -1 := by
        rw [(applyOp_frame rf rf1 op h).1]; exact hme
      have := ih rf1 (pre ++ (castVote rf op).toList) hme1
        (fun o ho => hc o (List.mem_cons_of_mem _ ho)) hin.2 hr1 ha1
      simpa [votesCast, h, List.append_assoc] using this

/-- C2 (as stated, refuted). One vote per term fails in two ways.  A request
whose CandidateId is -1, the value votedFor uses for "none", leaves no record: a
fresh peer grants its vote in term 1 to candidate -1 and then, in the same
term, to candidate 2.  And currentTerm wraps around: a peer that granted its
vote to candidate 1 in term 9223372036854775807 and then starts an election is
in term -9223372036854775808, so the next request of term 9223372036854775807
is a higher term again and candidate 2 is granted a vote of that same term. -/
theorem one_vote_per_term_fails :
    (∃ v w, v ∈ votesCast (Make 3 0 0)
        [Op.requestVote 1 ⟨1, -1, 0, 0⟩, Op.requestVote 2 ⟨1, 2, 0, 0⟩] ∧
      w ∈ votesCast (Make 3 0 0)
        [Op.requestVote 1 ⟨1, -1, 0, 0⟩, Op.requestVote 2 ⟨1, 2, 0, 0⟩] ∧
      v.1 = w.1 ∧ v.2 ≠ w.2) ∧
    votesCast (Make 3 0 0)
        [Op.requestVote 1 ⟨9223372036854775807, 1, 0, 0⟩, Op.startElection 2,
         Op.requestVote 3 ⟨9223372036854775807, 2, 0, 0⟩]
      = [(9223372036854775807, 1), (-9223372036854775808, 0), (9223372036854775807, 2)] := by
  refine ⟨⟨(1, -1), (1, 2), ?_, ?_, rfl, by decide⟩, by decide⟩ <;> decide

/-- C2 (amended). One vote per term: along every sequence of operations on a
peer built by Make whose own id is not -1, in which no RequestVote carries
CandidateId -1 and startElection runs only at a currentTerm below
9223372036854775807 (there the increment wraps around), any two votes cast in
one term (votes
granted by RequestVote, recorded with the reply term, and the self vote of
startElection) are for the same candidate. -/
theorem one_vote_per_term (npeers : Nat) (me : Int) (now : Nat) (ops : List Op)
    (hme : me ≠ -1) (hc : ∀ op ∈ ops, candidateOf op ≠ some (-1))
    (hin : incrementsInRange (Make npeers me now) ops = true) :
    VotesAgree (votesCast (Make npeers me now) ops) := by
  have h := votes_agree_from ops (Make npeers me now) [] hme hc hin
    (fun v hv => by simp at hv) (fun v hv => by simp at hv)
  simpa using h

/-- Witness of C2 (amended): peer 0 votes for candidate 1 in term 1, refuses
candidate 2 in that term, then votes for itself in term 2 and refuses
candidate 2 there. -/
theorem one_vote_per_term_witness :
    (0 : Int) ≠ -1 ∧
    votesCast (Make 3 0 0)
      [Op.requestVote 1 ⟨1, 1, 0, 0⟩, Op.requestVote 2 ⟨1, 2, 0, 0⟩,
       Op.startElection 3, Op.requestVote 4 ⟨2, 2, 0, 0⟩] = [(1, 1), (2, 0)] ∧
    VotesAgree (votesCast (Make 3 0 0)
      [Op.requestVote 1 ⟨1, 1, 0, 0⟩, Op.requestVote 2 ⟨1, 2, 0, 0⟩,
       Op.startElection 3, Op.requestVote 4 ⟨2, 2, 0, 0⟩]) :=
  ⟨by decide, by decide,
    one_vote_per_term 3 0 0 _ (by decide) (by simp [candidateOf]) (by decide)⟩

/-! ### Term monotonicity -/

/-- C4 (as stated, refuted). Term monotonicity fails where the increment wraps
around: a fresh peer that handled a RequestVote of term 9223372036854775807 is
in that term, and the first part of startElection then leaves it in term
-9223372036854775808. -/
theorem currentTerm_wraps_at_max :
    ∃ rf rf1,
      runOps (Make 3 0 0) [Op.requestVote 1 ⟨9223372036854775807, 1, 0, 0⟩] = some rf ∧
      rf.currentTerm = 9223372036854775807 ∧
      applyOp rf (Op.startElection 2) = some rf1 ∧
      rf1.currentTerm = -9223372036854775808 ∧ rf1.currentTerm < rf.currentTerm :=
  ⟨{ Make 3 0 1 with currentTerm := 9223372036854775807, votedFor := 1 },
   { Make 3 0 2 with currentTerm := -9223372036854775808, votedFor := 0,
                     state := CANDIDATE },
   by decide, rfl, by decide, rfl, by decide⟩

/-- C4 (amended). Term monotonicity: an operation that is run on a peer with a
non-empty log and, for AppendEntries, a non-negative PrevLogIndex completes;
whenever an operation (RequestVote, AppendEntries, Start, Kill, the locked
first part of startElection, the reply handling of callRequestVote and
callAppendEntries, the tally with promotion) completes, currentTerm after it is
at least currentTerm before it, provided that startElection is run at a
currentTerm below 9223372036854775807 (there the increment wraps around); and
the Term of a handler reply is at least the currentTerm before the call. -/
theorem currentTerm_monotone (rf : Raft) (op : Op) :
    (rf.log ≠ [] → prevLogIndexOk op → ∃ rf1, applyOp rf op = some rf1) ∧
    (∀ rf1, applyOp rf op = some rf1 →
      (startsElection op = true → rf.currentTerm < maxInt64) →
      rf.currentTerm ≤ rf1.currentTerm) ∧
    (∀ t, replyTerm rf op = some t → rf.currentTerm ≤ t) := by
  refine ⟨applyOp_isSome rf op,
    fun rf1 h hin => ((applyOp_frame rf rf1 op h).2.2.1 hin).1, ?_⟩
  intro t ht
  cases op with
  | requestVote now args =>
    simp only [replyTerm, Option.map_eq_some', Prod.exists] at ht
    obtain ⟨r, reply, hr, rfl⟩ := ht
    exact (requestVote_frame rf r now args reply hr).2.2.2.2.2.1
  | appendEntries now args =>
    simp only [replyTerm, Option.map_eq_some', Prod.exists] at ht
    obtain ⟨r, reply, hr, rfl⟩ := ht
    obtain ⟨_, _, _, h4, h5, _⟩ := appendEntries_frame rf r now args reply hr
    rw [h5]; exact h4
  | start command => simp [replyTerm] at ht
  | kill => simp [replyTerm] at ht
  | startElection now => simp [replyTerm] at ht
  | voteReply term reply => simp [replyTerm] at ht
  | appendReply term reply => simp [replyTerm] at ht
  | tally t g => simp [replyTerm] at ht

/-- Witness of C4 (amended): a fresh peer handles an AppendEntries of term 4
(its term goes from 0 to 4 and the reply carries term 4) and then starts an
election (term 5). -/
theorem currentTerm_monotone_witness :
    applyOp (Make 3 0 0) (Op.appendEntries 7 ⟨4, 1, 0, 0, [], 0⟩)
      = some { Make 3 0 7 with currentTerm := 4 } ∧
    replyTerm (Make 3 0 0) (Op.appendEntries 7 ⟨4, 1, 0, 0, [], 0⟩) = some 4 ∧
    (Make 3 0 0).currentTerm ≤ ({ Make 3 0 7 with currentTerm := 4 } : Raft).currentTerm ∧
    (Make 3 0 0).currentTerm ≤ 4 ∧
    applyOp { Make 3 0 7 with currentTerm := 4 } (Op.startElection 9)
      = some { Make 3 0 9 with currentTerm := 5, votedFor := 0, state := CANDIDATE } ∧
    (4 : Int) ≤ 5 :=
  have h1 : applyOp (Make 3 0 0) (Op.appendEntries 7 ⟨4, 1, 0, 0, [], 0⟩)
      = some { Make 3 0 7 with currentTerm := 4 } := by decide
  have h2 : replyTerm (Make 3 0 0) (Op.appendEntries 7 ⟨4, 1, 0, 0, [], 0⟩) = some 4 := by
    decide
  have h3 : applyOp { Make 3 0 7 with currentTerm := 4 } (Op.startElection 9)
      = some { Make 3 0 9 with currentTerm := 5, votedFor := 0, state := CANDIDATE } := by
    decide
  ⟨h1, h2,
    (currentTerm_monotone (Make 3 0 0) (Op.appendEntries 7 ⟨4, 1, 0, 0, [], 0⟩)).2.1 _ h1
      (fun h => absurd h (by decide)),
    (currentTerm_monotone (Make 3 0 0) (Op.appendEntries 7 ⟨4, 1, 0, 0, [], 0⟩)).2.2 4 h2,
    h3,
    (currentTerm_monotone { Make 3 0 7 with currentTerm := 4 } (Op.startElection 9)).2.1 _ h3
      (fun _ => by decide)⟩

/-! ### Reachable states and commit monotonicity -/

theorem wellFormed_make (npeers : Nat) (me : Int) (now : Nat) :
    WellFormed (Make npeers me now) :=
  ⟨⟨_, _, rfl, rfl⟩, by simp [Make], by simp [Make]⟩

theorem wellFormed_step (rf rf1 : Raft) (op : Op) (hw : WellFormed rf)
    (h : applyOp rf op = some rf1) :
    WellFormed rf1 ∧ rf.commitIndex ≤ rf1.commitIndex := by
  obtain ⟨⟨e, l, hl, he⟩, h0, h1⟩ := hw
  obtain ⟨_, _, _, ⟨suf, hs⟩, hc⟩ := applyOp_frame rf rf1 op h
  have hlen : (rf1.log.length : Int) = rf.log.length + suf.length := by
    rw [hs]; simp
  have hhead : ∃ e1 l1, rf1.log = e1 :: l1 ∧ e1.Term = 0 :=
    ⟨e, l ++ suf, by rw [hs, hl]; rfl, he⟩
  rcases hc with hc | ⟨lc, hc1, hc2⟩
  · exact ⟨⟨hhead, by omega, by omega⟩, by omega⟩
  · rw [commitBound_eq_min lc _ (by omega)] at hc2
    have h2 : rf1.commitIndex ≤ (rf.log.length : Int) - 1 := by
      rw [hc2]; exact min_le_right _ _
    have h3 : rf.commitIndex ≤ rf1.commitIndex := by
      rw [hc2]; exact le_min (le_of_lt hc1) h1
    exact ⟨⟨hhead, by omega, by omega⟩, h3⟩

theorem wellFormed_run (ops : List Op) :
    ∀ (rf rf1 : Raft), WellFormed rf → runOps rf ops = some rf1 → WellFormed rf1 := by
  induction ops with
  | nil =>
    intro rf rf1 hw h
    simp only [runOps, Option.some.injEq] at h
    exact h ▸ hw
  | cons op ops ih =>
    intro rf rf1 hw h
    cases h1 : applyOp rf op with
    | none => simp [runOps, h1] at h
    | some r =>
      simp only [runOps, h1] at h
      exact ih r rf1 (wellFormed_step rf r op hw h1).1 h

/-- C9. Commit monotonicity: in every state a peer built by Make reaches by a
sequence of operations (RequestVote, AppendEntries, Start, Kill, startElection,
reply handling, tally with promotion; any arguments), no operation that
completes decreases commitIndex. -/
theorem commitIndex_monotone (npeers : Nat) (me : Int) (now : Nat) (ops : List Op)
    (rf : Raft) (hreach : runOps (Make npeers me now) ops = some rf)
    (op : Op) (rf1 : Raft) (hstep : applyOp rf op = some rf1) :
    rf.commitIndex ≤ rf1.commitIndex :=
  (wellFormed_step rf rf1 op
    (wellFormed_run ops _ rf (wellFormed_make npeers me now) hreach) hstep).2

/-- Witness of C9: a peer that became leader and took one command handles an
AppendEntries of a later term with LeaderCommit 5; commitIndex goes from 0
to 1. -/
theorem commitIndex_monotone_witness :
    ∃ rf rf1,
      runOps (Make 3 0 0) [Op.startElection 1, Op.tally ⟨1, false⟩ true, Op.start (some 7)]
        = some rf ∧
      applyOp rf (Op.appendEntries 9 ⟨2, 1, 0, 0, [], 5⟩) = some rf1 ∧
      rf.commitIndex = 0 ∧ rf1.commitIndex = 1 ∧ rf.commitIndex ≤ rf1.commitIndex := by
  have h1 : runOps (Make 3 0 0)
      [Op.startElection 1, Op.tally ⟨1, false⟩ true, Op.start (some 7)]
      = some { Make 3 0 1 with currentTerm := 1, votedFor := 0, state := LEADER,
                               log := [⟨0, none⟩, ⟨1, some 7⟩],
                               nextIndex := [1, 1, 1] } := by
    decide
  have h2 : applyOp
      { Make 3 0 1 with currentTerm := 1, votedFor := 0, state := LEADER,
                        log := [⟨0, none⟩, ⟨1, some 7⟩],
                        nextIndex := [1, 1, 1] }
      (Op.appendEntries 9 ⟨2, 1, 0, 0, [], 5⟩)
      = some { Make 3 0 9 with currentTerm := 2, votedFor := -1, state := FOLLOWER,
                               log := [⟨0, none⟩, ⟨1, some 7⟩],
                               nextIndex := [1, 1, 1], commitIndex := 1 } := by
    decide
  exact ⟨_, _, h1, h2, rfl, rfl, commitIndex_monotone 3 0 0 _ _ h1 _ _ h2⟩

/-! ### AppendEntries -/

theorem appendEntries_stepDown (rf : Raft) (now : Nat) (args : AppendEntriesArgs)
    (h : args.Term > rf.currentTerm) :
    AppendEntries rf now args = AppendEntries (stepDown rf args.Term) now args := by
  simp [AppendEntries, h, stepDown]

theorem appendEntries_same_term (rf : Raft) (now : Nat) (args : AppendEntriesArgs)
    (hterm : args.Term = rf.currentTerm) (hprev : 0 ≤ args.PrevLogIndex) :
    ∃ rf1 reply, AppendEntries rf now args = some (rf1, reply) ∧
      rf1.state = rf.state ∧ rf1.currentTerm = rf.currentTerm ∧
      rf1.votedFor = rf.votedFor ∧ rf1.log = rf.log ∧ rf1.timestamp = now ∧
      reply.Term = rf.currentTerm ∧
      (reply.Success = true ↔
        (args.PrevLogIndex < (rf.log.length : Int) ∧
          ∃ e, rf.log[args.PrevLogIndex.toNat]? = some e ∧ e.Term = args.PrevLogTerm)) ∧
      (reply.Success = true → args.LeaderCommit > rf.commitIndex →
        rf1.commitIndex = commitBound args.LeaderCommit ((rf.log.length : Int) - 1)) ∧
      (¬ (reply.Success = true ∧ args.LeaderCommit > rf.commitIndex) →
        rf1.commitIndex = rf.commitIndex) := by
  have h1 : ¬ args.Term > rf.currentTerm := by omega
  have h2 : ¬ args.Term < rf.currentTerm := by omega
  by_cases hge : args.PrevLogIndex ≥ (rf.log.length : Int)
  · simp only [AppendEntries, h1, h2, if_false, hge, if_true]
    refine ⟨_, _, rfl, rfl, rfl, rfl, rfl, rfl, rfl, ?_, ?_, ?_⟩
    · simp only [Bool.false_eq_true, false_iff, not_and]
      intro h; omega
    · intro h; simp at h
    · intro _; rfl
  · obtain ⟨e, he, he2⟩ := logAt_of_lt rf.log args.PrevLogIndex hprev (not_le.mp hge)
    by_cases hne : e.Term ≠ args.PrevLogTerm
    · simp only [AppendEntries, h1, h2, if_false, hge, he, hne, if_true, ne_eq,
        not_false_eq_true]
      refine ⟨_, _, rfl, rfl, rfl, rfl, rfl, rfl, rfl, ?_, ?_, ?_⟩
      · simp only [Bool.false_eq_true, false_iff, not_and, not_exists]
        intro _ x hx
        rw [he2] at hx
        simp only [Option.some.injEq] at hx
        rw [← hx]; exact hne
      · intro h; simp at h
      · intro _; rfl
    · have heq : e.Term = args.PrevLogTerm := not_not.mp hne
      by_cases hlc : args.LeaderCommit > rf.commitIndex
      · simp only [AppendEntries, h1, h2, if_false, hge, he, heq, hlc, if_true, ne_eq,
          not_true_eq_false]
        refine ⟨_, _, rfl, rfl, rfl, rfl, rfl, rfl, rfl, ?_, ?_, ?_⟩
        · simp only [true_iff]
          exact ⟨not_le.mp hge, e, he2, heq⟩
        · intro _ _; rfl
        · intro h; exact absurd ⟨rfl, trivial⟩ h
      · simp only [AppendEntries, h1, h2, if_false, hge, he, heq, hlc, ne_eq,
          not_true_eq_false]
        refine ⟨_, _, rfl, rfl, rfl, rfl, rfl, rfl, rfl, ?_, ?_, ?_⟩
        · simp only [true_iff]
          exact ⟨not_le.mp hge, e, he2, heq⟩
        · intro _ h; first | exact absurd h hlc | exact h.elim
        · intro _; rfl

theorem appendEntries_result (rf : Raft) (now : Nat) (args : AppendEntriesArgs)
    (hterm : args.Term ≥ rf.currentTerm) (hprev : 0 ≤ args.PrevLogIndex) :
    ∃ rf1 reply, AppendEntries rf now args = some (rf1, reply) ∧
      rf1.currentTerm = args.Term ∧ rf1.log = rf.log ∧ reply.Term = args.Term ∧
      (reply.Success = true ↔
        (args.PrevLogIndex < (rf.log.length : Int) ∧
          ∃ e, rf.log[args.PrevLogIndex.toNat]? = some e ∧ e.Term = args.PrevLogTerm)) ∧
      (reply.Success = true → args.LeaderCommit > rf.commitIndex →
        rf1.commitIndex = commitBound args.LeaderCommit ((rf.log.length : Int) - 1)) ∧
      (¬ (reply.Success = true ∧ args.LeaderCommit > rf.commitIndex) →
        rf1.commitIndex = rf.commitIndex) := by
  by_cases hgt : args.Term > rf.currentTerm
  · obtain ⟨rf1, reply, h, _, h2, _, h4, _, h6, h7, h8, h9⟩ :=
      appendEntries_same_term (stepDown rf args.Term) now args rfl hprev
    rw [← appendEntries_stepDown rf now args hgt] at h
    exact ⟨rf1, reply, h, h2, h4, h6, h7, h8, h9⟩
  · have heq : args.Term = rf.currentTerm := by omega
    obtain ⟨rf1, reply, h, _, h2, _, h4, _, h6, h7, h8, h9⟩ :=
      appendEntries_same_term rf now args heq hprev
    exact ⟨rf1, reply, h, by rw [h2, heq], h4, by rw [h6, heq], h7, h8, h9⟩

/-- C5 (as stated, refuted). An accepted heartbeat with LeaderCommit above
commitIndex need not change commitIndex: on a fresh peer (log of length 1,
commitIndex 0) a matching request with empty Entries and LeaderCommit 3 is
accepted and commitIndex stays 0. -/
theorem appendEntries_commit_unchanged_on_fresh_peer :
    ∃ rf1 reply,
      AppendEntries (Make 3 0 0) 1 ⟨1, 1, 0, 0, [], 3⟩ = some (rf1, reply) ∧
      reply.Success = true ∧ (3 : Int) > (Make 3 0 0).commitIndex ∧
      rf1.commitIndex = (Make 3 0 0).commitIndex :=
  ⟨{ Make 3 0 1 with currentTerm := 1 }, ⟨1, true⟩, by decide, rfl, by decide, rfl⟩

/-- C5 (amended). AppendEntries acceptance: a request with
`args.Term >= currentTerm` and `args.PrevLogIndex >= 0` is answered, with
`Success = true` exactly when `PrevLogIndex < len(log)` and
`log[PrevLogIndex].Term = PrevLogTerm`; so a request with empty Entries and
matching PrevLogIndex and PrevLogTerm is accepted; and when additionally
`LeaderCommit > commitIndex` it may advance commitIndex: there is a peer whose
commitIndex such a request advances. -/
theorem appendEntries_acceptance :
    (∀ (rf : Raft) (now : Nat) (args : AppendEntriesArgs),
      args.Term ≥ rf.currentTerm → 0 ≤ args.PrevLogIndex →
      ∃ rf1 reply, AppendEntries rf now args = some (rf1, reply) ∧
        (reply.Success = true ↔
          (args.PrevLogIndex < (rf.log.length : Int) ∧
            ∃ e, rf.log[args.PrevLogIndex.toNat]? = some e ∧ e.Term = args.PrevLogTerm)) ∧
        (args.Entries = [] → args.PrevLogIndex < (rf.log.length : Int) →
          (∃ e, rf.log[args.PrevLogIndex.toNat]? = some e ∧ e.Term = args.PrevLogTerm) →
          reply.Success = true)) ∧
    (∃ (rf : Raft) (now : Nat) (args : AppendEntriesArgs) (rf1 : Raft)
        (reply : AppendEntriesReply),
      args.Entries = [] ∧ args.LeaderCommit > rf.commitIndex ∧
      AppendEntries rf now args = some (rf1, reply) ∧ reply.Success = true ∧
      rf.commitIndex < rf1.commitIndex) := by
  constructor
  · intro rf now args hterm hprev
    obtain ⟨rf1, reply, h, _, _, _, h4, _, _⟩ := appendEntries_result rf now args hterm hprev
    exact ⟨rf1, reply, h, h4, fun _ hlt he => h4.mpr ⟨hlt, he⟩⟩
  · exact ⟨{ Make 3 0 0 with currentTerm := 1, log := [⟨0, none⟩, ⟨1, some 7⟩] }, 9,
      ⟨1, 1, 1, 1, [], 5⟩,
      { Make 3 0 9 with currentTerm := 1, log := [⟨0, none⟩, ⟨1, some 7⟩], commitIndex := 1 },
      ⟨1, true⟩, rfl, by decide, by decide, rfl, by decide⟩

/-- Witness of C5 (amended): a peer whose log ends with the entry of term 1 at
index 1 accepts the heartbeat of term 1 that names that entry. -/
theorem appendEntries_acceptance_witness :
    ∃ rf1 reply,
      AppendEntries { Make 3 0 0 with currentTerm := 1, log := [⟨0, none⟩, ⟨1, some 7⟩] }
        9 ⟨1, 1, 1, 1, [], 5⟩ = some (rf1, reply) ∧
      reply.Success = true := by
  obtain ⟨rf1, reply, h, _, h2⟩ :=
    appendEntries_acceptance.1
      { Make 3 0 0 with currentTerm := 1, log := [⟨0, none⟩, ⟨1, some 7⟩] }
      9 ⟨1, 1, 1, 1, [], 5⟩ (by decide) (by decide)
  exact ⟨rf1, reply, h, h2 rfl (by decide) ⟨⟨1, some 7⟩, rfl, rfl⟩⟩

/-- C6. Stale-term rejection: a RequestVote or AppendEntries request with
`args.Term < currentTerm` is answered with `Term = currentTerm` and
`VoteGranted = false` (respectively `Success = false`), and the peer state after
the handler is the state before it, in every field. -/
theorem stale_term_rejected (rf : Raft) (now : Nat) :
    (∀ args : RequestVoteArgs, args.Term < rf.currentTerm →
      RequestVote rf now args = some (rf, ⟨rf.currentTerm, false⟩)) ∧
    (∀ args : AppendEntriesArgs, args.Term < rf.currentTerm →
      AppendEntries rf now args = some (rf, ⟨rf.currentTerm, false⟩)) := by
  constructor
  · intro args h
    simp [RequestVote, h]
  · intro args h
    have h1 : ¬ args.Term > rf.currentTerm := by omega
    simp [AppendEntries, h, h1]

/-- Witness of C6: a follower at term 5 that receives an AppendEntries of term 3
replies with term 5 and Success false and keeps its state. -/
theorem stale_term_rejected_witness :
    AppendEntries { Make 3 0 0 with currentTerm := 5 } 9 ⟨3, 1, 0, 0, [], 0⟩
      = some ({ Make 3 0 0 with currentTerm := 5 }, ⟨5, false⟩) ∧
    RequestVote { Make 3 0 0 with currentTerm := 5 } 9 ⟨3, 1, 0, 0⟩
      = some ({ Make 3 0 0 with currentTerm := 5 }, ⟨5, false⟩) :=
  ⟨(stale_term_rejected { Make 3 0 0 with currentTerm := 5 } 9).2 ⟨3, 1, 0, 0, [], 0⟩
      (by decide),
   (stale_term_rejected { Make 3 0 0 with currentTerm := 5 } 9).1 ⟨3, 1, 0, 0⟩
      (by decide)⟩

/-- C7 (code evaluated at the failing input). A fresh peer answers an
AppendEntries of term 1 that carries one entry after index 0 with
`Success = true`, and its log is still the sentinel alone: index 1 is outside
the log. -/
theorem appendEntries_does_not_store_entries :
    AppendEntries (Make 3 1 0) 5 ⟨1, 0, 0, 0, [⟨1, some 42⟩], 0⟩
      = some ({ Make 3 1 5 with currentTerm := 1 }, ⟨1, true⟩) ∧
    ({ Make 3 1 5 with currentTerm := 1 } : Raft).log = [⟨0, none⟩] ∧
    logAt ({ Make 3 1 5 with currentTerm := 1 } : Raft).log (0 + 1 + 0) = none := by
  decide

/-- C8 (code evaluated at failing inputs). The handler bounds the new
commitIndex by `len(log) - 1`, not by `PrevLogIndex + len(Entries)`: a peer that
was leader and holds two entries of its own accepts a heartbeat of term 2
(PrevLogIndex 0, no entries, LeaderCommit 2) and moves commitIndex to 2, where
`min(LeaderCommit, PrevLogIndex + len(Entries))` is 0; and a fresh peer that is
sent three entries with LeaderCommit 2 keeps commitIndex 0, where that minimum
is 2. -/
theorem appendEntries_commit_bound_is_log_length :
    (∃ rf rf1 reply,
      runOps (Make 3 0 0)
        [Op.startElection 1, Op.tally ⟨1, false⟩ true, Op.start (some 7), Op.start (some 8)]
        = some rf ∧
      AppendEntries rf 9 ⟨2, 1, 0, 0, [], 2⟩ = some (rf1, reply) ∧
      reply.Success = true ∧ (2 : Int) > rf.commitIndex ∧ rf1.commitIndex = 2 ∧
      min (2 : Int) (0 + (([] : List LogEntry).length : Int)) = 0) ∧
    (∃ rf1 reply,
      AppendEntries (Make 3 1 0) 5 ⟨1, 0, 0, 0, [⟨1, some 1⟩, ⟨1, some 2⟩, ⟨1, some 3⟩], 2⟩
        = some (rf1, reply) ∧
      reply.Success = true ∧ (2 : Int) > (Make 3 1 0).commitIndex ∧ rf1.commitIndex = 0 ∧
      min (2 : Int)
        (0 + (([⟨1, some 1⟩, ⟨1, some 2⟩, ⟨1, some 3⟩] : List LogEntry).length : Int)) = 2) := by
  constructor
  · refine ⟨{ Make 3 0 1 with currentTerm := 1, votedFor := 0, state := LEADER,
                              log := [⟨0, none⟩, ⟨1, some 7⟩, ⟨1, some 8⟩],
                              nextIndex := [1, 1, 1] },
      { Make 3 0 9 with currentTerm := 2, votedFor := -1, state := FOLLOWER,
                        log := [⟨0, none⟩, ⟨1, some 7⟩, ⟨1, some 8⟩],
                        nextIndex := [1, 1, 1], commitIndex := 2 },
      ⟨2, true⟩, by decide, by decide, rfl, by decide, rfl, by decide⟩
  · exact ⟨{ Make 3 1 5 with currentTerm := 1 }, ⟨1, true⟩, by decide, rfl, by decide, rfl,
      by decide⟩

/-- C10 (as stated, refuted). A peer that became Candidate in term 1 and then
handles an AppendEntries of term 1 is still Candidate afterwards. -/
theorem candidate_keeps_role_on_same_term_append :
    ∃ rf s rf1 reply,
      startElection (Make 3 0 0) 1 = some (rf, s) ∧ rf.state = CANDIDATE ∧
      rf.currentTerm = 1 ∧
      AppendEntries rf 2 ⟨1, 1, 0, 0, [], 0⟩ = some (rf1, reply) ∧
      rf1.state = CANDIDATE ∧ rf1.state ≠ FOLLOWER :=
  ⟨{ Make 3 0 1 with currentTerm := 1, votedFor := 0, state := CANDIDATE }, ⟨1, 0, 0⟩,
   { Make 3 0 2 with currentTerm := 1, votedFor := 0, state := CANDIDATE }, ⟨1, true⟩,
   by decide, rfl, rfl, by decide, rfl, by decide⟩

theorem appendEntries_role (rf rf1 : Raft) (now : Nat) (args : AppendEntriesArgs)
    (reply : AppendEntriesReply) (h : AppendEntries rf now args = some (rf1, reply)) :
    (args.Term > rf.currentTerm → rf1.state = FOLLOWER) ∧
    (¬ args.Term > rf.currentTerm → rf1.state = rf.state) := by
  unfold AppendEntries at h
  by_cases h2 : args.Term > rf.currentTerm
  · simp only [h2, if_true, stepDown] at h
    split_ifs at h
    all_goals
      first
      | omega
      | (simp only [Option.some.injEq, Prod.mk.injEq] at h
         obtain ⟨rfl, rfl⟩ := h
         simp [h2])
      | (split at h
         · simp at h
         · split_ifs at h <;>
           · simp only [Option.some.injEq, Prod.mk.injEq] at h
             obtain ⟨rfl, rfl⟩ := h
             simp [h2])
  · simp only [h2, if_false] at h
    split_ifs at h
    all_goals
      first
      | (simp only [Option.some.injEq, Prod.mk.injEq] at h
         obtain ⟨rfl, rfl⟩ := h
         simp [h2])
      | (split at h
         · simp at h
         · split_ifs at h <;>
           · simp only [Option.some.injEq, Prod.mk.injEq] at h
             obtain ⟨rfl, rfl⟩ := h
             simp [h2])

/-- C10 (amended). A Candidate that handles an AppendEntries request with
`args.Term = currentTerm` keeps its role: the handler answers every such request
with `PrevLogIndex >= 0`, and after it the role is still Candidate and
currentTerm equals args.Term; whatever the request, the role of a Candidate is
Follower after the handler only when `args.Term > currentTerm`, and then it
is. -/
theorem candidate_same_term_append (rf : Raft) (now : Nat) (args : AppendEntriesArgs)
    (hrole : rf.state = CANDIDATE) :
    (args.Term = rf.currentTerm → 0 ≤ args.PrevLogIndex →
      ∃ rf1 reply, AppendEntries rf now args = some (rf1, reply) ∧
        rf1.state = CANDIDATE ∧ rf1.currentTerm = args.Term) ∧
    (∀ rf1 reply, AppendEntries rf now args = some (rf1, reply) →
      (rf1.state = FOLLOWER ↔ args.Term > rf.currentTerm)) := by
  constructor
  · intro hterm hprev
    obtain ⟨rf1, reply, h, h1, h2, _⟩ := appendEntries_same_term rf now args hterm hprev
    exact ⟨rf1, reply, h, by rw [h1, hrole], by rw [h2, hterm]⟩
  · intro rf1 reply h
    obtain ⟨h1, h2⟩ := appendEntries_role rf rf1 now args reply h
    constructor
    · intro hf
      by_contra hgt
      rw [h2 hgt, hrole] at hf
      exact absurd hf (by decide)
    · exact h1

/-- Witness of C10 (amended): the Candidate of term 1 handles a heartbeat of
term 1 and stays Candidate, and a heartbeat of term 2 and becomes Follower. -/
theorem candidate_same_term_append_witness :
    (∃ rf1 reply,
      AppendEntries { Make 3 0 1 with currentTerm := 1, votedFor := 0, state := CANDIDATE }
        2 ⟨1, 1, 0, 0, [], 0⟩ = some (rf1, reply) ∧
      rf1.state = CANDIDATE ∧ rf1.currentTerm = 1) ∧
    ({ Make 3 0 2 with currentTerm := 2 } : Raft).state = FOLLOWER :=
  ⟨(candidate_same_term_append
      { Make 3 0 1 with currentTerm := 1, votedFor := 0, state := CANDIDATE }
      2 ⟨1, 1, 0, 0, [], 0⟩ rfl).1 rfl (by decide),
   ((candidate_same_term_append
      { Make 3 0 1 with currentTerm := 1, votedFor := 0, state := CANDIDATE }
      2 ⟨2, 1, 0, 0, [], 0⟩ rfl).2 { Make 3 0 2 with currentTerm := 2 } ⟨2, true⟩
      (by decide)).mpr (by decide)⟩

/-! ### Election safety -/

/-- C3 (code evaluated at the failing schedule). In a cluster of three peers,
peer 0 starts an election in term 1 and `callRequestVote` returns the grant of
peer 1; before the tally block of that goroutine runs, peer 0 handles the
RequestVote of peer 2 for term 2, moves to term 2 and grants; peer 2 becomes
LEADER of term 2; then the tally block of peer 0 counts the grant of term 1
and sets state = LEADER while currentTerm is 2.  Peers 0 and 2 are both LEADER
with currentTerm 2. -/
theorem election_safety_violated :
    (Cluster.run (Cluster.init 3) lateTallySchedule).map Cluster.leaders
      = some [(0, 2), (2, 2)] ∧
    ∃ c, Cluster.run (Cluster.init 3) lateTallySchedule = some c ∧ ¬ ElectionSafety c := by
  have h0 : ((Cluster.run (Cluster.init 3) lateTallySchedule).bind
      (fun c => c.peers[0]?)).map (fun r => (r.state, r.currentTerm))
      = some (LEADER, 2) := by decide
  have h2 : ((Cluster.run (Cluster.init 3) lateTallySchedule).bind
      (fun c => c.peers[2]?)).map (fun r => (r.state, r.currentTerm))
      = some (LEADER, 2) := by decide
  refine ⟨by decide, ?_⟩
  cases hrun : Cluster.run (Cluster.init 3) lateTallySchedule with
  | none => simp [hrun] at h0
  | some c =>
    simp only [hrun, Option.some_bind, Option.map_eq_some', Prod.mk.injEq] at h0 h2
    obtain ⟨r0, hr0, hs0, ht0⟩ := h0
    obtain ⟨r2, hr2, hs2, ht2⟩ := h2
    exact ⟨c, rfl, fun h => h 0 2 r0 r2 (by decide) hr0 hr2 hs0 hs2 (by rw [ht0, ht2])⟩

/-! ### Idempotence of AppendEntries -/

theorem appendEntries_twice (rf rf1 : Raft) (now now2 : Nat) (args : AppendEntriesArgs)
    (reply : AppendEntriesReply) (h : AppendEntries rf now args = some (rf1, reply)) :
    rf1.log = rf.log ∧
    ∃ rf2, AppendEntries rf1 now2 args = some (rf2, reply) ∧
      { rf2 with timestamp := rf1.timestamp } = rf1 := by
  refine ⟨(appendEntries_frame rf rf1 now args reply h).2.1, ?_⟩
  unfold AppendEntries at h
  by_cases h2 : args.Term > rf.currentTerm
  · simp only [h2, if_true, stepDown] at h
    split_ifs at h
    all_goals
      first
      | omega
      | (simp only [Option.some.injEq, Prod.mk.injEq] at h
         obtain ⟨rfl, rfl⟩ := h
         simp [AppendEntries, stepDown, *])
      | (split at h
         · simp at h
         · rename_i e he
           split_ifs at h <;>
           · simp only [Option.some.injEq, Prod.mk.injEq] at h
             obtain ⟨rfl, rfl⟩ := h
             try simp at he
             simp [AppendEntries, stepDown, *])
  · simp only [h2, if_false] at h
    split_ifs at h
    all_goals
      first
      | omega
      | (simp only [Option.some.injEq, Prod.mk.injEq] at h
         obtain ⟨rfl, rfl⟩ := h
         simp [AppendEntries, stepDown, *])
      | (split at h
         · simp at h
         · rename_i e he
           split_ifs at h <;>
           · simp only [Option.some.injEq, Prod.mk.injEq] at h
             obtain ⟨rfl, rfl⟩ := h
             try simp at he
             simp [AppendEntries, stepDown, *])

/-- C11. AppendEntries is idempotent: when the handler completes on a request,
handling the same request again right after (at any clock value) completes with
the same reply and leaves the peer state as the first call left it in every
field except the election timestamp; and the handler never changes the log, so
a request whose entries are already in the log leaves the whole log, entries
after the batch included, as it was. -/
theorem appendEntries_idempotent (rf rf1 : Raft) (now now2 : Nat)
    (args : AppendEntriesArgs) (reply : AppendEntriesReply)
    (h : AppendEntries rf now args = some (rf1, reply)) :
    rf1.log = rf.log ∧
    ∃ rf2, AppendEntries rf1 now2 args = some (rf2, reply) ∧
      rf2.currentTerm = rf1.currentTerm ∧ rf2.votedFor = rf1.votedFor ∧
      rf2.state = rf1.state ∧ rf2.log = rf1.log ∧ rf2.commitIndex = rf1.commitIndex ∧
      { rf2 with timestamp := rf1.timestamp } = rf1 := by
  obtain ⟨hlog, rf2, h2, heq⟩ := appendEntries_twice rf rf1 now now2 args reply h
  refine ⟨hlog, rf2, h2, ?_, ?_, ?_, ?_, ?_, heq⟩
  all_goals
    conv_rhs => rw [← heq]

/-- Witness of C11: a fresh peer handles an AppendEntries of term 1 with
LeaderCommit 4 twice. -/
theorem appendEntries_idempotent_witness :
    AppendEntries (Make 3 0 0) 5 ⟨1, 1, 0, 0, [⟨1, some 9⟩], 4⟩
      = some ({ Make 3 0 5 with currentTerm := 1 }, ⟨1, true⟩) ∧
    ∃ rf2, AppendEntries { Make 3 0 5 with currentTerm := 1 } 8
        ⟨1, 1, 0, 0, [⟨1, some 9⟩], 4⟩ = some (rf2, ⟨1, true⟩) ∧
      { rf2 with timestamp := 5 } = ({ Make 3 0 5 with currentTerm := 1 } : Raft) :=
  have h : AppendEntries (Make 3 0 0) 5 ⟨1, 1, 0, 0, [⟨1, some 9⟩], 4⟩
      = some ({ Make 3 0 5 with currentTerm := 1 }, ⟨1, true⟩) := by decide
  have h2 := (appendEntries_idempotent (Make 3 0 0) _ 5 8 _ _ h).2
  ⟨h, h2.imp (fun _ hr => ⟨hr.1, hr.2.2.2.2.2.2⟩)⟩

/-! ### Start -/

/-- C12. Start on a live leader: when state is LEADER and Kill has not been
called, Start returns `(len(log), currentTerm, true)` and the new log is the old
log followed by the one entry `{currentTerm, command}`, nothing else in the state
changes; so the entry at the returned index is the submitted command, every
earlier index holds what it held, and the returned index is at least 1 when the
log was non-empty. -/
theorem start_on_live_leader (rf : Raft) (command : Option Nat)
    (hrole : rf.state = LEADER) (hlive : killed rf = false) :
    Start rf command =
      ({ rf with log := rf.log ++ [{ Term := rf.currentTerm, Command := command }] },
        ((rf.log.length : Int), rf.currentTerm, true)) ∧
    logAt (Start rf command).1.log (Start rf command).2.1
      = some { Term := rf.currentTerm, Command := command } ∧
    (∀ i : Nat, i < rf.log.length → (Start rf command).1.log[i]? = rf.log[i]?) ∧
    (rf.log ≠ [] → 1 ≤ (Start rf command).2.1) := by
  have hs : Start rf command =
      ({ rf with log := rf.log ++ [{ Term := rf.currentTerm, Command := command }] },
        ((rf.log.length : Int), rf.currentTerm, true)) := by
    simp [Start, hrole, hlive]
  rw [hs]
  refine ⟨rfl, ?_, ?_, ?_⟩
  · simp [logAt]
  · intro i hi
    simp [List.getElem?_append_left hi]
  · intro hne
    have : 0 < rf.log.length := List.length_pos.mpr hne
    simp only
    omega

/-- Witness of C12: the leader of term 1 with the sentinel alone takes
command 7 at index 1. -/
theorem start_on_live_leader_witness :
    Start { Make 3 0 0 with currentTerm := 1, state := LEADER } (some 7) =
      ({ Make 3 0 0 with currentTerm := 1, state := LEADER,
                         log := [⟨0, none⟩, ⟨1, some 7⟩] }, (1, 1, true)) :=
  (start_on_live_leader { Make 3 0 0 with currentTerm := 1, state := LEADER } (some 7)
    rfl (by decide)).1

/-- C13. Start on a peer that is not leader or has been killed: when state is
not LEADER or Kill has been called (whatever the role), Start returns
`(-1, -1, false)` and the state after it is the state before it in every field;
in particular Start after Kill is refused on every peer. -/
theorem start_refused (rf : Raft) (command : Option Nat) :
    (rf.state ≠ LEADER ∨ killed rf = true → Start rf command = (rf, (-1, -1, false))) ∧
    killed (Kill rf) = true ∧
    Start (Kill rf) command = (Kill rf, (-1, -1, false)) := by
  refine ⟨fun h => ?_, by simp [killed, Kill], by simp [Start, killed, Kill]⟩
  simp [Start, h]

/-- Witness of C13: a follower refuses Start, and so does a killed leader. -/
theorem start_refused_witness :
    Start (Make 3 0 0) (some 7) = (Make 3 0 0, (-1, -1, false)) ∧
    Start { Make 3 0 0 with state := LEADER, dead := 1 } (some 7)
      = ({ Make 3 0 0 with state := LEADER, dead := 1 }, (-1, -1, false)) :=
  ⟨(start_refused (Make 3 0 0) (some 7)).1 (Or.inl (by decide)),
   (start_refused { Make 3 0 0 with state := LEADER, dead := 1 } (some 7)).1
     (Or.inr (by decide))⟩

/-! ### Election clock -/

/-- C14. Election clock is reset only on a grant: when RequestVote completes,
a reply with `VoteGranted = false` leaves the timestamp as it was and a reply
with `VoteGranted = true` comes with the timestamp set to the current time. -/
theorem requestVote_timestamp (rf rf1 : Raft) (now : Nat) (args : RequestVoteArgs)
    (reply : RequestVoteReply) (h : RequestVote rf now args = some (rf1, reply)) :
    (reply.VoteGranted = false → rf1.timestamp = rf.timestamp) ∧
    (reply.VoteGranted = true → rf1.timestamp = now) := by
  unfold RequestVote at h
  by_cases h1 : args.Term < rf.currentTerm
  · simp only [h1, if_true, Option.some.injEq, Prod.mk.injEq] at h
    obtain ⟨rfl, rfl⟩ := h
    simp
  · simp only [h1, if_false] at h
    by_cases h2 : args.Term > rf.currentTerm
    · simp only [h2, if_true, stepDown, true_or] at h
      split at h
      · simp at h
      · split_ifs at h <;>
        · simp only [Option.some.injEq, Prod.mk.injEq] at h
          obtain ⟨rfl, rfl⟩ := h
          simp
    · simp only [h2, if_false] at h
      split_ifs at h with h4
      · split at h
        · simp at h
        · split_ifs at h <;>
          · simp only [Option.some.injEq, Prod.mk.injEq] at h
            obtain ⟨rfl, rfl⟩ := h
            simp
      · simp only [Option.some.injEq, Prod.mk.injEq] at h
        obtain ⟨rfl, rfl⟩ := h
        simp

/-- Witness of C14: a peer that voted for candidate 1 in term 1 at time 5
refuses candidate 2 at time 9 and keeps timestamp 5. -/
theorem requestVote_timestamp_witness :
    RequestVote (Make 3 0 0) 5 ⟨1, 1, 0, 0⟩
      = some ({ Make 3 0 5 with currentTerm := 1, votedFor := 1 }, ⟨1, true⟩) ∧
    RequestVote { Make 3 0 5 with currentTerm := 1, votedFor := 1 } 9 ⟨1, 2, 0, 0⟩
      = some ({ Make 3 0 5 with currentTerm := 1, votedFor := 1 }, ⟨1, false⟩) ∧
    ({ Make 3 0 5 with currentTerm := 1, votedFor := 1 } : Raft).timestamp = 5 :=
  have h1 : RequestVote (Make 3 0 0) 5 ⟨1, 1, 0, 0⟩
      = some ({ Make 3 0 5 with currentTerm := 1, votedFor := 1 }, ⟨1, true⟩) := by decide
  ⟨h1, by decide, (requestVote_timestamp _ _ 5 _ _ h1).2 rfl⟩

/-! ### Promotion, step-down and the term guard -/

/-- C15 (code evaluated at the failing input). Peer 0 starts an election in
term 1 and `callRequestVote` returns a grant of term 1; the peer then handles a
RequestVote of term 2 and is Follower in term 2; the tally block of the term-1
election, run on that state with the grant, sets state = LEADER while
currentTerm is 2.  In general the tally block promotes on a majority whatever
the role and the term of the peer are. -/
theorem tally_promotes_without_term_or_role_check :
    (∃ rf0 rf,
      runOps (Make 3 0 0) [Op.startElection 1] = some rf0 ∧
      callRequestVote rf0 1 ⟨1, true⟩ = (rf0, true) ∧
      runOps rf0 [Op.voteReply 1 ⟨1, true⟩, Op.requestVote 3 ⟨2, 2, 0, 0⟩] = some rf ∧
      rf.currentTerm = 2 ∧ rf.state = FOLLOWER ∧
      (tallyVote rf Tally.init true).1.state = LEADER ∧
      (tallyVote rf Tally.init true).1.currentTerm = 2) ∧
    (∀ (rf : Raft) (t : Tally), t.electionFinished = false →
      (t.votes + 1) * 2 > (rf.npeers : Int) →
      (tallyVote rf t true).1.state = LEADER ∧
      (tallyVote rf t true).1.currentTerm = rf.currentTerm) := by
  constructor
  · exact ⟨{ Make 3 0 1 with currentTerm := 1, votedFor := 0, state := CANDIDATE },
      { Make 3 0 3 with currentTerm := 2, votedFor := 2, state := FOLLOWER },
      by decide, by decide, by decide, rfl, rfl, by decide, by decide⟩
  · intro rf t hf hm
    obtain ⟨h1, _, _, _, _, h6, _⟩ := promote_frame rf
    simp only [tallyVote, hf, and_self, if_true, hm]
    exact ⟨h6, h1⟩

theorem requestVote_higher_term (rf rf1 : Raft) (now : Nat) (args : RequestVoteArgs)
    (reply : RequestVoteReply) (hgt : args.Term > rf.currentTerm)
    (h : RequestVote rf now args = some (rf1, reply)) :
    rf1.currentTerm = args.Term ∧ rf1.state = FOLLOWER ∧
    (reply.VoteGranted = false → rf1.votedFor = -1) ∧
    (reply.VoteGranted = true → rf1.votedFor = args.CandidateId) := by
  have h1 : ¬ args.Term < rf.currentTerm := by omega
  unfold RequestVote at h
  simp only [h1, if_false, hgt, if_true, stepDown, true_or] at h
  split at h
  · simp at h
  · split_ifs at h <;>
    · simp only [Option.some.injEq, Prod.mk.injEq] at h
      obtain ⟨rfl, rfl⟩ := h
      simp

theorem appendEntries_higher_term (rf rf1 : Raft) (now : Nat) (args : AppendEntriesArgs)
    (reply : AppendEntriesReply) (hgt : args.Term > rf.currentTerm)
    (h : AppendEntries rf now args = some (rf1, reply)) :
    rf1.currentTerm = args.Term ∧ rf1.state = FOLLOWER ∧ rf1.votedFor = -1 := by
  unfold AppendEntries at h
  simp only [hgt, if_true, stepDown] at h
  split_ifs at h
  all_goals
    first
    | omega
    | (simp only [Option.some.injEq, Prod.mk.injEq] at h
       obtain ⟨rfl, rfl⟩ := h
       simp)
    | (split at h
       · simp at h
       · split_ifs at h <;>
         · simp only [Option.some.injEq, Prod.mk.injEq] at h
           obtain ⟨rfl, rfl⟩ := h
           simp)

/-- C16. Step-down on a higher term: (a) a RequestVote or AppendEntries request
with `args.Term > currentTerm` is answered when the log is non-empty
(respectively `PrevLogIndex >= 0`), and after the handler currentTerm is
args.Term, the role is Follower and votedFor is -1, except that a RequestVote
that grants leaves votedFor at the candidate; (b) when callRequestVote or
callAppendEntries handles a reply with `reply.Term > currentTerm` to a call
dispatched in the current term, currentTerm becomes reply.Term, the role
Follower and votedFor -1. -/
theorem stepDown_on_higher_term (rf : Raft) (now : Nat) :
    (∀ args : RequestVoteArgs, args.Term > rf.currentTerm →
      (rf.log ≠ [] → ∃ r, RequestVote rf now args = some r) ∧
      ∀ rf1 reply, RequestVote rf now args = some (rf1, reply) →
        rf1.currentTerm = args.Term ∧ rf1.state = FOLLOWER ∧
        (reply.VoteGranted = false → rf1.votedFor = -1) ∧
        (reply.VoteGranted = true → rf1.votedFor = args.CandidateId)) ∧
    (∀ args : AppendEntriesArgs, args.Term > rf.currentTerm →
      (0 ≤ args.PrevLogIndex → ∃ r, AppendEntries rf now args = some r) ∧
      ∀ rf1 reply, AppendEntries rf now args = some (rf1, reply) →
        rf1.currentTerm = args.Term ∧ rf1.state = FOLLOWER ∧ rf1.votedFor = -1) ∧
    (∀ (term : Int) (reply : RequestVoteReply),
      term = rf.currentTerm → reply.Term > rf.currentTerm →
        (callRequestVote rf term reply).1.currentTerm = reply.Term ∧
        (callRequestVote rf term reply).1.state = FOLLOWER ∧
        (callRequestVote rf term reply).1.votedFor = -1) ∧
    (∀ (term : Int) (reply : AppendEntriesReply),
      term = rf.currentTerm → reply.Term > rf.currentTerm →
        (callAppendEntries rf term reply).1.currentTerm = reply.Term ∧
        (callAppendEntries rf term reply).1.state = FOLLOWER ∧
        (callAppendEntries rf term reply).1.votedFor = -1) := by
  refine ⟨?_, ?_, ?_, ?_⟩
  · intro args hgt
    refine ⟨fun hlog => ?_, fun rf1 reply h => requestVote_higher_term rf rf1 now args reply hgt h⟩
    obtain ⟨rf1, reply, h, _⟩ := requestVote_result rf now args hlog (le_of_lt hgt)
    exact ⟨_, h⟩
  · intro args hgt
    refine ⟨fun hp => ?_, fun rf1 reply h => ?_⟩
    · obtain ⟨rf1, reply, h, _⟩ := appendEntries_result rf now args (le_of_lt hgt) hp
      exact ⟨_, h⟩
    · exact appendEntries_higher_term rf rf1 now args reply hgt h
  · intro term reply ht hgt
    simp [callRequestVote, ht, hgt, stepDown]
  · intro term reply ht hgt
    simp [callAppendEntries, ht, hgt, stepDown]

/-- Witness of C16: the leader of term 1 handles an AppendEntries of term 3, and
a candidate of term 1 handles a vote reply of term 4. -/
theorem stepDown_on_higher_term_witness :
    AppendEntries { Make 3 0 0 with currentTerm := 1, votedFor := 0, state := LEADER } 6
        ⟨3, 1, 0, 0, [], 0⟩
      = some ({ Make 3 0 6 with currentTerm := 3 }, ⟨3, true⟩) ∧
    ({ Make 3 0 6 with currentTerm := 3 } : Raft).state = FOLLOWER ∧
    (callRequestVote { Make 3 0 0 with currentTerm := 1, votedFor := 0, state := CANDIDATE }
        1 ⟨4, false⟩).1.currentTerm = 4 :=
  have h : AppendEntries
        { Make 3 0 0 with currentTerm := 1, votedFor := 0, state := LEADER } 6
        ⟨3, 1, 0, 0, [], 0⟩
      = some ({ Make 3 0 6 with currentTerm := 3 }, ⟨3, true⟩) := by decide
  ⟨h,
   (((stepDown_on_higher_term
      { Make 3 0 0 with currentTerm := 1, votedFor := 0, state := LEADER } 6).2.1
      ⟨3, 1, 0, 0, [], 0⟩ (by decide)).2 _ _ h).2.1,
   ((stepDown_on_higher_term
      { Make 3 0 0 with currentTerm := 1, votedFor := 0, state := CANDIDATE } 0).2.2.1
      1 ⟨4, false⟩ rfl (by decide)).1⟩

/-- C17. Term-confusion guard: when the term a call was dispatched with differs
from currentTerm at the time its reply is handled, callRequestVote and
callAppendEntries return false and the state after them is the state before
them in every field, whatever the reply holds; the tally block run with that
result changes neither the peer nor the tally. -/
theorem reply_of_other_term_dropped (rf : Raft) (term : Int) (hne : term ≠ rf.currentTerm) :
    (∀ reply : RequestVoteReply, callRequestVote rf term reply = (rf, false)) ∧
    (∀ reply : AppendEntriesReply, callAppendEntries rf term reply = (rf, false)) ∧
    (∀ (reply : RequestVoteReply) (t : Tally),
      tallyVote rf t (callRequestVote rf term reply).2 = (rf, t)) := by
  have h1 : ∀ reply : RequestVoteReply, callRequestVote rf term reply = (rf, false) := by
    intro reply
    simp [callRequestVote, hne]
  refine ⟨h1, ?_, ?_⟩
  · intro reply
    simp [callAppendEntries, hne]
  · intro reply t
    rw [h1 reply]
    simp [tallyVote]

/-- Witness of C17: a peer now in term 2 handles the granting reply of term 3 to
a call it dispatched in term 1. -/
theorem reply_of_other_term_dropped_witness :
    callRequestVote { Make 3 0 0 with currentTerm := 2 } 1 ⟨3, true⟩
      = ({ Make 3 0 0 with currentTerm := 2 }, false) ∧
    callAppendEntries { Make 3 0 0 with currentTerm := 2 } 1 ⟨3, true⟩
      = ({ Make 3 0 0 with currentTerm := 2 }, false) :=
  ⟨(reply_of_other_term_dropped { Make 3 0 0 with currentTerm := 2 } 1 (by decide)).1
      ⟨3, true⟩,
   (reply_of_other_term_dropped { Make 3 0 0 with currentTerm := 2 } 1 (by decide)).2.1
      ⟨3, true⟩⟩

/-! ### Starting an election -/

/-- C18 (as stated, refuted). A fresh peer that handled a RequestVote of term
9223372036854775807 has a non-empty log and is in that term; the first part of
startElection leaves it in term -9223372036854775808, not in the old term plus
one, and the vote requests carry that term. -/
theorem startElection_wraps_at_max :
    ∃ rf rf1 s,
      runOps (Make 3 0 0) [Op.requestVote 1 ⟨9223372036854775807, 1, 0, 0⟩] = some rf ∧
      rf.log ≠ [] ∧ rf.currentTerm = 9223372036854775807 ∧
      startElection rf 2 = some (rf1, s) ∧
      rf1.currentTerm = -9223372036854775808 ∧ rf1.currentTerm ≠ rf.currentTerm + 1 ∧
      (requestVoteArgs rf1 s.term s.lastlogidx s.lastlogterm).Term = -9223372036854775808 :=
  ⟨{ Make 3 0 1 with currentTerm := 9223372036854775807, votedFor := 1 },
   { Make 3 0 2 with currentTerm := -9223372036854775808, votedFor := 0,
                     state := CANDIDATE },
   ⟨-9223372036854775808, 0, 0⟩,
   by decide, by decide, rfl, by decide, rfl, by decide, rfl⟩

/-- C18 (amended). Starting an election: on a peer with a non-empty log the
locked first part of startElection completes with votedFor the own id, role
Candidate and the timestamp reset, and leaves every other field but currentTerm
(log, commitIndex, lastApplied among them); currentTerm is one above the old
one when the old one is at least -9223372036854775808 and below
9223372036854775807 (at that value the increment wraps around); the arguments of the vote requests built from what it
saved are Term = the new currentTerm, CandidateId = the own id, LastLogIndex =
`len(log) - 1` and LastLogTerm = the term of the last log entry. -/
theorem startElection_effect (rf : Raft) (now : Nat) (hlog : rf.log ≠ []) :
    ∃ rf1 s, startElection rf now = some (rf1, s) ∧
      rf1 = { rf with currentTerm := wrapInt64 (rf.currentTerm + 1), votedFor := rf.me,
                      state := CANDIDATE, timestamp := now } ∧
      (minInt64 ≤ rf.currentTerm → rf.currentTerm < maxInt64 →
        rf1.currentTerm = rf.currentTerm + 1) ∧
      rf1.log = rf.log ∧ rf1.commitIndex = rf.commitIndex ∧
      rf1.lastApplied = rf.lastApplied ∧
      requestVoteArgs rf1 s.term s.lastlogidx s.lastlogterm =
        { Term := rf1.currentTerm, CandidateId := rf.me,
          LastLogIndex := (rf.log.length : Int) - 1,
          LastLogTerm := (rf.log.getLast hlog).Term } := by
  have hlast := logAt_last rf.log hlog
  simp only [startElection, hlast]
  refine ⟨_, _, rfl, rfl, fun h1 h2 => ?_, rfl, rfl, rfl, rfl⟩
  exact wrapInt64_of_inRange _ (by unfold minInt64 at *; omega)
    (by unfold maxInt64 at *; omega)

/-- Witness of C18 (amended): a fresh peer 2 starts its first election at
time 600. -/
theorem startElection_effect_witness :
    ∃ rf1 s, startElection (Make 3 2 0) 600 = some (rf1, s) ∧
      rf1.currentTerm = 1 ∧ rf1.votedFor = 2 ∧ rf1.state = CANDIDATE ∧
      requestVoteArgs rf1 s.term s.lastlogidx s.lastlogterm = ⟨1, 2, 0, 0⟩ := by
  obtain ⟨rf1, s, h, h1, h2, _, _, _, h5⟩ :=
    startElection_effect (Make 3 2 0) 600 (by simp [Make])
  have ht : rf1.currentTerm = 1 := h2 (by decide) (by decide)
  subst h1
  exact ⟨_, s, h, ht, rfl, rfl, by rw [h5, ht]; rfl⟩

/-! ### Majority -/

theorem majorityTest_iff (v : Int) (n : Nat) : majorityTest v n ↔ v ≥ majority n := by
  unfold majorityTest majority
  rw [ge_iff_le, Int.ceil_le, div_le_iff₀ (by norm_num : (0 : ℚ) < 2)]
  constructor
  · intro h
    have h1 : (n : Int) + 1 ≤ v * 2 := by omega
    exact_mod_cast h1
  · intro h
    have h1 : (n : Int) + 1 ≤ v * 2 := by exact_mod_cast h
    omega

theorem tallyVote_counted (rf : Raft) (t : Tally) (hf : t.electionFinished = false) :
    (majorityTest (t.votes + 1) rf.npeers →
      tallyVote rf t true = (promote rf, ⟨t.votes + 1, true⟩)) ∧
    (¬ majorityTest (t.votes + 1) rf.npeers →
      tallyVote rf t true = (rf, ⟨t.votes + 1, false⟩)) := by
  constructor
  · intro h
    unfold majorityTest at h
    simp [tallyVote, hf, h]
  · intro h
    unfold majorityTest at h
    simp only [tallyVote, hf, and_self, if_true, h, if_false]

theorem tallyVote_not_counted (rf : Raft) (t : Tally) (g : Bool)
    (h : g = false ∨ t.electionFinished = true) : tallyVote rf t g = (rf, t) := by
  rcases h with h | h <;> simp [tallyVote, h]

theorem tallyInv_step (n : Nat) (rf0 rf : Raft) (t : Tally) (k : Nat) (g : Bool)
    (hinv : TallyInv n rf0 rf t k) :
    TallyInv n rf0 (tallyVote rf t g).1 (tallyVote rf t g).2 (k + (if g = true then 1 else 0)) := by
  obtain ⟨hn, hopen, hdone⟩ := hinv
  by_cases hc : g = false ∨ t.electionFinished = true
  · rw [tallyVote_not_counted rf t g hc]
    refine ⟨hn, fun hf => ?_, fun hf => ?_⟩
    · have hg : g = false := by
        rcases hc with hc | hc
        · exact hc
        · rw [hf] at hc; exact absurd hc (by decide)
      simpa [hg] using hopen hf
    · obtain ⟨h1, h2, h3, h4, h5⟩ := hdone hf
      refine ⟨by omega, h2, ?_, h4, h5⟩
      push_cast
      split_ifs <;> omega
  · have hg : g = true := by
      cases g
      · exact absurd (Or.inl rfl) hc
      · rfl
    have hf : t.electionFinished = false := by
      cases h : t.electionFinished
      · rfl
      · exact absurd (Or.inr h) hc
    obtain ⟨hrf, hv, hlow⟩ := hopen hf
    subst hg
    rw [if_pos rfl]
    by_cases hm : majorityTest (t.votes + 1) rf.npeers
    · rw [(tallyVote_counted rf t hf).1 hm]
      obtain ⟨_, _, _, _, _, h6, h7, _⟩ := promote_frame rf
      unfold majorityTest at hm
      rw [hn] at hm
      refine ⟨by rw [h7, hn], fun h => by simp at h, fun _ => ?_⟩
      refine ⟨by omega, hm, by push_cast; omega, ?_, h6⟩
      by_cases hk : 1 ≤ k
      · left
        have := hlow hk
        simp only
        omega
      · right
        simp only
        omega
    · rw [(tallyVote_counted rf t hf).2 hm]
      unfold majorityTest at hm
      rw [hn] at hm
      refine ⟨hn, fun _ => ⟨hrf, ?_, fun _ => hm⟩, fun h => by simp at h⟩
      push_cast
      omega

theorem tallyInv_run (n : Nat) (rf0 : Raft) (gs : List Bool) :
    ∀ (rf : Raft) (t : Tally) (k : Nat), TallyInv n rf0 rf t k →
      TallyInv n rf0 (tallyVotes rf t gs).1 (tallyVotes rf t gs).2 (k + gs.count true) := by
  induction gs with
  | nil => intro rf t k h; simpa [tallyVotes] using h
  | cons g gs ih =>
    intro rf t k h
    have h1 := ih _ _ _ (tallyInv_step n rf0 rf t k g h)
    have hk : k + (if g = true then 1 else 0) + gs.count true = k + (g :: gs).count true := by
      cases g <;> simp [List.count_cons]; omega
    rw [hk] at h1
    simpa [tallyVotes] using h1

theorem tallyInv_init (rf : Raft) : TallyInv rf.npeers rf rf Tally.init 0 :=
  ⟨rfl, fun _ => ⟨rfl, rfl, fun h => absurd h (by decide)⟩, fun h => by simp [Tally.init] at h⟩

theorem quorums_intersect (n : Nat) (A B : Finset (Fin n))
    (hA : majorityTest A.card n) (hB : majorityTest B.card n) : (A ∩ B).Nonempty := by
  unfold majorityTest at hA hB
  rw [← Finset.card_pos]
  have h1 : (A ∪ B).card ≤ n := by
    simpa using Finset.card_le_univ (A ∪ B)
  have h2 := Finset.card_union_add_card_inter A B
  omega

/-- C19 (as stated, refuted). In a cluster of one peer the threshold
`⌈(1+1)/2⌉` is 1 and the self vote alone passes the test, yet the peer is not
promoted: the election it starts calls no server, so no grant is counted and
the tally block, which holds the test, never runs. -/
theorem single_peer_never_promoted :
    majority 1 = 1 ∧ majorityTest Tally.init.votes 1 ∧
    otherServers (Make 1 0 0) = [] ∧
    (tallyVotes (Make 1 0 0) Tally.init []).2.electionFinished = false ∧
    ((Cluster.init 1).run [Action.timeout 0 600 500]).map
        (fun c => (c.leaders, c.net, c.returned, c.elections.map Election.tally))
      = some ([], [], [], [Tally.init]) := by
  refine ⟨?_, by decide, by decide, by decide, rfl⟩
  have h1 := (majorityTest_iff 1 1).mp (by decide)
  have h2 : ¬ majority 1 ≤ 0 := fun hc => absurd ((majorityTest_iff 0 1).mpr hc) (by decide)
  omega

/-- C19 (amended). Majority threshold: for every cluster size N and vote count
v (so for N >= 1 and v >= 0) the test `v*2 > N` holds exactly when
`v >= ⌈(N+1)/2⌉`; a counted grant promotes exactly when the tally it produces
passes the test; for N >= 2, after any sequence of returned votes the election
has promoted exactly when the self vote plus the counted grants is at least
`⌈(N+1)/2⌉`, the peer is then LEADER and the tally stopped at exactly
`⌈(N+1)/2⌉`, and before that the peer is untouched; and two sets of peers that
each pass the test share a peer. -/
theorem majority_threshold (rf : Raft) :
    (∀ v : Int, majorityTest v rf.npeers ↔ v ≥ majority rf.npeers) ∧
    (∀ t : Tally, t.electionFinished = false →
      (t.votes + 1 ≥ majority rf.npeers →
        tallyVote rf t true = (promote rf, ⟨t.votes + 1, true⟩)) ∧
      (t.votes + 1 < majority rf.npeers →
        tallyVote rf t true = (rf, ⟨t.votes + 1, false⟩))) ∧
    (2 ≤ rf.npeers → ∀ gs : List Bool,
      ((tallyVotes rf Tally.init gs).2.electionFinished = true ↔
        1 + (gs.count true : Int) ≥ majority rf.npeers) ∧
      ((tallyVotes rf Tally.init gs).2.electionFinished = true →
        (tallyVotes rf Tally.init gs).1.state = LEADER ∧
        (tallyVotes rf Tally.init gs).2.votes = majority rf.npeers) ∧
      ((tallyVotes rf Tally.init gs).2.electionFinished = false →
        (tallyVotes rf Tally.init gs).1 = rf ∧
        (tallyVotes rf Tally.init gs).2.votes = 1 + (gs.count true : Int))) ∧
    (∀ A B : Finset (Fin rf.npeers),
      majorityTest A.card rf.npeers → majorityTest B.card rf.npeers → (A ∩ B).Nonempty) := by
  refine ⟨fun v => majorityTest_iff v rf.npeers, fun t hf => ⟨fun h => ?_, fun h => ?_⟩,
    fun hn gs => ?_, fun A B => quorums_intersect rf.npeers A B⟩
  · exact (tallyVote_counted rf t hf).1 ((majorityTest_iff _ _).mpr h)
  · exact (tallyVote_counted rf t hf).2 (fun hm => by
      have := (majorityTest_iff _ _).mp hm
      omega)
  · have hinv := tallyInv_run rf.npeers rf gs rf Tally.init 0 (tallyInv_init rf)
    simp only [zero_add] at hinv
    obtain ⟨_, hopen, hdone⟩ := hinv
    have hmaj : ∀ v : Int, v * 2 > (rf.npeers : Int) ↔ v ≥ majority rf.npeers :=
      fun v => majorityTest_iff v rf.npeers
    have hone : ¬ (1 : Int) ≥ majority rf.npeers := by
      intro hc
      have := (hmaj _).mpr hc
      omega
    refine ⟨⟨fun hf => ?_, fun hm => ?_⟩, fun hf => ?_, fun hf => ?_⟩
    · obtain ⟨_, h2, h3, _, _⟩ := hdone hf
      refine (hmaj _).mp ?_
      omega
    · by_contra hnf
      have hf : (tallyVotes rf Tally.init gs).2.electionFinished = false := by
        cases h : (tallyVotes rf Tally.init gs).2.electionFinished
        · rfl
        · exact absurd h hnf
      obtain ⟨_, hv, hlow⟩ := hopen hf
      have hk : 1 ≤ gs.count true := by
        by_contra hk0
        have h0 : gs.count true = 0 := by omega
        rw [h0] at hm
        exact hone (by simpa using hm)
      have h1 := hlow hk
      rw [hv] at h1
      exact h1 ((hmaj _).mpr hm)
    · obtain ⟨_, h2, _, h4, h5⟩ := hdone hf
      refine ⟨h5, ?_⟩
      have hge := (hmaj _).mp h2
      rcases h4 with h4 | h4
      · have hlt : ¬ (tallyVotes rf Tally.init gs).2.votes - 1 ≥ majority rf.npeers := by
          intro hc
          have := (hmaj _).mpr hc
          omega
        omega
      · omega
    · obtain ⟨h1, h2, _⟩ := hopen hf
      exact ⟨h1, h2⟩

/-- Witness of C19 (amended): in a cluster of 3 the threshold is 2; one granted
reply after a refused one promotes, and the peer sets {0, 1} and {1, 2} share a
peer. -/
theorem majority_threshold_witness :
    majority 3 = 2 ∧
    (tallyVotes (Make 3 0 0) Tally.init [false, true]).2 = ⟨2, true⟩ ∧
    (tallyVotes (Make 3 0 0) Tally.init [false, true]).1.state = LEADER ∧
    (({0, 1} : Finset (Fin 3)) ∩ {1, 2}).Nonempty := by
  have h := majority_threshold (Make 3 0 0)
  have hm : majority 3 = 2 := by
    have h1 := (h.1 2).mp (by decide)
    have h2 : ¬ majority 3 ≤ 1 := fun hc => absurd ((h.1 1).mpr hc) (by decide)
    have h3 : majority (Make 3 0 0).npeers = majority 3 := rfl
    omega
  have hf : (tallyVotes (Make 3 0 0) Tally.init [false, true]).2.electionFinished = true :=
    ((h.2.2.1 (by decide) [false, true]).1).mpr (by
      have h3 : majority (Make 3 0 0).npeers = majority 3 := rfl
      rw [h3, hm]; decide)
  refine ⟨hm, by decide, ((h.2.2.1 (by decide) [false, true]).2.1 hf).1, ?_⟩
  exact h.2.2.2 ({0, 1} : Finset (Fin 3)) ({1, 2} : Finset (Fin 3)) (by decide) (by decide)

/-! ### Log well-formedness and safe indexing -/

/-- C20. Log well-formedness and safe indexing: in every state a peer built by
Make reaches by a sequence of operations (any arguments), the log is non-empty,
its entry 0 has term 0 and `0 <= commitIndex <= len(log) - 1`; so the access
`log[len(log)-1]` of RequestVote and startElection is in range and both
complete, and the access `log[args.PrevLogIndex]` of AppendEntries, reached only
when `PrevLogIndex < len(log)`, is in range for every request with
`PrevLogIndex >= 0`, on which the handler completes. -/
theorem reachable_wellFormed (npeers : Nat) (me : Int) (now : Nat) (ops : List Op)
    (rf : Raft) (hreach : runOps (Make npeers me now) ops = some rf) :
    rf.log ≠ [] ∧ (∃ e, rf.log[0]? = some e ∧ e.Term = 0) ∧
    0 ≤ rf.commitIndex ∧ rf.commitIndex ≤ (rf.log.length : Int) - 1 ∧
    (∃ e, logAt rf.log ((rf.log.length : Int) - 1) = some e) ∧
    (∀ (now1 : Nat) (args : RequestVoteArgs), ∃ r, RequestVote rf now1 args = some r) ∧
    (∀ now1 : Nat, ∃ r, startElection rf now1 = some r) ∧
    (∀ (now1 : Nat) (args : AppendEntriesArgs), 0 ≤ args.PrevLogIndex →
      (args.PrevLogIndex < (rf.log.length : Int) →
        ∃ e, logAt rf.log args.PrevLogIndex = some e) ∧
      ∃ r, AppendEntries rf now1 args = some r) := by
  obtain ⟨⟨e, l, hl, he⟩, h0, h1⟩ :=
    wellFormed_run ops _ rf (wellFormed_make npeers me now) hreach
  have hne : rf.log ≠ [] := by rw [hl]; exact List.cons_ne_nil _ _
  refine ⟨hne, ⟨e, by rw [hl]; simp, he⟩, h0, h1, ⟨_, logAt_last rf.log hne⟩, ?_, ?_, ?_⟩
  · intro now1 args
    obtain ⟨r, hr⟩ := applyOp_isSome rf (Op.requestVote now1 args) hne trivial
    simp only [applyOp, Option.map_eq_some'] at hr
    obtain ⟨a, ha, _⟩ := hr
    exact ⟨a, ha⟩
  · intro now1
    obtain ⟨r, hr⟩ := applyOp_isSome rf (Op.startElection now1) hne trivial
    simp only [applyOp, Option.map_eq_some'] at hr
    obtain ⟨a, ha, _⟩ := hr
    exact ⟨a, ha⟩
  · intro now1 args hp
    refine ⟨fun hlt => ?_, ?_⟩
    · obtain ⟨e1, h2, _⟩ := logAt_of_lt rf.log args.PrevLogIndex hp hlt
      exact ⟨e1, h2⟩
    · obtain ⟨r, hr⟩ := applyOp_isSome rf (Op.appendEntries now1 args) hne hp
      simp only [applyOp, Option.map_eq_some'] at hr
      obtain ⟨a, ha, _⟩ := hr
      exact ⟨a, ha⟩

/-- Witness of C20: the state of a peer that was elected, took a command and
then handled an AppendEntries of term 2 with LeaderCommit 5. -/
theorem reachable_wellFormed_witness :
    ∃ rf, runOps (Make 3 0 0)
        [Op.startElection 1, Op.tally ⟨1, false⟩ true, Op.start (some 7),
         Op.appendEntries 9 ⟨2, 1, 0, 0, [], 5⟩] = some rf ∧
      rf.log.length = 2 ∧ rf.commitIndex = 1 ∧ rf.log ≠ [] ∧
      rf.commitIndex ≤ (rf.log.length : Int) - 1 := by
  have h : runOps (Make 3 0 0)
      [Op.startElection 1, Op.tally ⟨1, false⟩ true, Op.start (some 7),
       Op.appendEntries 9 ⟨2, 1, 0, 0, [], 5⟩]
      = some { Make 3 0 9 with currentTerm := 2, votedFor := -1, state := FOLLOWER,
                               log := [⟨0, none⟩, ⟨1, some 7⟩],
                               nextIndex := [1, 1, 1], commitIndex := 1 } := by
    decide
  have hw := reachable_wellFormed 3 0 0 _ _ h
  exact ⟨_, h, rfl, rfl, hw.1, hw.2.2.2.1⟩

end MIT6824
